import Mathlib

/-!
Verification of the genai-sonar-lint core against its specification.

The development shallowly embeds the TypeScript sources:
strings are `List Char`, the file system is passed explicitly as
content values, and the external analyzer / AI oracle are parameters.
Each section names the source file and function it embeds.
-/

set_option maxHeartbeats 1000000

namespace GSL

/- Character constants.  Some characters (braces, quotes, backslash,
dollar) are written via `Char.ofNat` to keep the source free of
delicate literals. -/

def braceO : Char := Char.ofNat 123

def braceC : Char := Char.ofNat 125

def brackO : Char := Char.ofNat 91

def brackC : Char := Char.ofNat 93

def quoteC : Char := Char.ofNat 34

def backslashC : Char := Char.ofNat 92

def dollarC : Char := Char.ofNat 36

def amperC : Char := Char.ofNat 38

def backtickC : Char := Char.ofNat 96

def apostC : Char := Char.ofNat 39

def nlC : Char := Char.ofNat 10

def tabC : Char := Char.ofNat 9

def crC : Char := Char.ofNat 13

def slashC : Char := Char.ofNat 47

def colonC : Char := Char.ofNat 58

def commaC : Char := Char.ofNat 44

/- Generic list-of-char helpers shared by several components. -/

/-- Model of JavaScript `String.prototype.split` with a single-character
separator: `"".split(c) = [""]`, separators at the ends produce empty
segments. -/
def splitOnChar (sep : Char) : List Char → List (List Char)
  | [] => [[]]
  | c :: rest =>
    let r := splitOnChar sep rest
    if c = sep then [] :: r
    else
      match r with
      | [] => [[c]]
      | h :: t => (c :: h) :: t

/-- Model of `Array.prototype.join` with a single-character separator. -/
def joinWith (sep : Char) : List (List Char) → List Char
  | [] => []
  | [l] => l
  | l :: rest => l ++ sep :: joinWith sep rest

/-- Order-preserving deduplication keeping first occurrences, the
behaviour of `[...new Set(list)]` in JavaScript. -/
def dedupAux {α : Type} [DecidableEq α] (seen : List α) : List α → List α
  | [] => []
  | x :: xs => if x ∈ seen then dedupAux seen xs else x :: dedupAux (x :: seen) xs

def dedup {α : Type} [DecidableEq α] (l : List α) : List α := dedupAux [] l

/-
Finding Aggregator, embedded from `parseESLintResult` in the
ESLint result parser (source file part_005).
-/

/-- One raw ESLint message, as consumed by the parser: `ruleId` is
nullable, `severity` is the numeric ESLint severity, `fix` records
whether a machine-applicable patch object is present (`!!msg.fix`),
`source` is the optional source snippet. -/
structure LintMessage where
  ruleId : Option (List Char)
  severity : Nat
  message : List Char
  line : Nat
  column : Nat
  source : Option (List Char)
  fix : Bool

/-- One per-file ESLint result: a file path plus its messages. -/
structure ESLintResult where
  filePath : List Char
  messages : List LintMessage

/-- One flattened message, the element type of `allMessages` in the
source. -/
structure FlatMsg where
  ruleId : Option (List Char)
  severity : List Char
  message : List Char
  file : List Char
  fileFull : List Char
  line : Nat
  column : Nat
  source : Option (List Char)
  hasFix : Bool

def errorStr : List Char := "error".toList

def warningStr : List Char := "warning".toList

/-- Short display path: `filePath.split(sep).pop() || filePath`. -/
def shortName (fp : List Char) : List Char :=
  let seg := (splitOnChar slashC fp).getLastD []
  if seg = [] then fp else seg

/-- The per-message flattening performed inside `results.flatMap`. -/
def flatOne (fp : List Char) (m : LintMessage) : FlatMsg :=
  { ruleId := m.ruleId
    severity := if m.severity = 2 then errorStr else warningStr
    message := m.message
    file := shortName fp
    fileFull := fp
    line := m.line
    column := m.column
    source := m.source
    hasFix := m.fix }

/-- `allMessages`: flatten all messages with file paths. -/
def allMessages : List ESLintResult → List FlatMsg
  | [] => []
  | r :: rest => r.messages.map (flatOne r.filePath) ++ allMessages rest

abbrev RuleKey := Option (List Char)

/-- Insertion step of the `Map`-based grouping: append to the existing
group of the message's rule key, or open a new group at the end
(insertion order of first occurrences, as a JS `Map` iterates). -/
def insertG : List (RuleKey × List FlatMsg) → FlatMsg → List (RuleKey × List FlatMsg)
  | [], m => [(m.ruleId, [m])]
  | (k, ms) :: gs, m =>
    if k = m.ruleId then (k, ms ++ [m]) :: gs else (k, ms) :: insertG gs m

/-- Group the flattened messages by rule id. -/
def groupByRule (msgs : List FlatMsg) : List (RuleKey × List FlatMsg) :=
  msgs.foldl insertG []

structure LintLocation where
  file : List Char
  fileFull : List Char
  line : Nat
  column : Nat
  hasFix : Bool

structure ParsedRule where
  ruleId : RuleKey
  severity : List Char
  count : Nat
  autoFixable : Bool
  fixableCount : Nat
  locations : List LintLocation
  sampleMessages : List (List Char)
  sampleSource : List (List Char)

structure LintSummary where
  totalIssues : Nat
  errors : Nat
  warnings : Nat
  fixable : Nat
  uniqueRules : Nat

structure ParsedResult where
  summary : LintSummary
  rules : List ParsedRule

def toLoc (m : FlatMsg) : LintLocation :=
  { file := m.file, fileFull := m.fileFull, line := m.line,
    column := m.column, hasFix := m.hasFix }

/-- Conversion of one rule group to a `ParsedRule`.  Groups produced by
`groupByRule` are never empty; on the (unreachable) empty group the
head severity defaults to the empty string. -/
def mkRule (g : RuleKey × List FlatMsg) : ParsedRule :=
  { ruleId := g.1
    severity := match g.2 with | [] => [] | m :: _ => m.severity
    count := g.2.length
    autoFixable := g.2.any (fun m => m.hasFix)
    fixableCount := (g.2.filter (fun m => m.hasFix)).length
    locations := g.2.map toLoc
    sampleMessages := dedup ((g.2.take 3).map (fun m => m.message))
    sampleSource :=
      dedup (((g.2.take 3).filterMap (fun m => m.source)).filter (fun s => s ≠ [])) }

/-- Embedding of `parseESLintResult`. -/
def parseESLintResult (results : List ESLintResult) : ParsedResult :=
  let all := allMessages results
  let rules := (groupByRule all).map mkRule
  { summary :=
      { totalIssues := all.length
        errors := (all.filter (fun m => m.severity = errorStr)).length
        warnings := (all.filter (fun m => m.severity = warningStr)).length
        fixable := (all.filter (fun m => m.hasFix)).length
        uniqueRules := rules.length }
    rules := rules }

/-- A concrete one-diagnostic input for exercising the aggregator. -/
def w10msg : LintMessage :=
  { ruleId := some "no-eval".toList
    severity := 2
    message := "eval can be harmful.".toList
    line := 3
    column := 5
    source := some "eval(code)".toList
    fix := false }

/-- A concrete one-file result list for exercising the aggregator. -/
def w10results : List ESLintResult :=
  [{ filePath := "src/a.ts".toList, messages := [w10msg] }]

/-- The rule group the aggregator produces on `w10results`. -/
def w10rule : ParsedRule :=
  mkRule (some "no-eval".toList, [flatOne "src/a.ts".toList w10msg])

/- Counting lemmas for the grouping fold. -/

/-- Total weight of all messages stored in a group list. -/
def msgWeight (w : FlatMsg → Nat) (gs : List (RuleKey × List FlatMsg)) : Nat :=
  (gs.map (fun g => (g.2.map w).sum)).sum

/-
Patch Applier, embedded from `applyFix` in src/src/eslint/fixer.ts.
The file system is modelled by passing the file's current content in
and the written content out; `none` models the `false` return, in
which case nothing is written.
-/

/-- First-occurrence split: `firstOcc pat s = some (pre, post)` when
`s = pre ++ pat ++ post` and `pre` is the shortest such prefix; `none`
when `pat` does not occur in `s`.  This is the search both
`String.prototype.includes` and `String.prototype.replace` perform. -/
def firstOcc (pat : List Char) : List Char → Option (List Char × List Char)
  | [] => if pat.isPrefixOf [] then some ([], []) else none
  | c :: rest =>
    if pat.isPrefixOf (c :: rest) then some ([], (c :: rest).drop pat.length)
    else (firstOcc pat rest).map (fun pr => (c :: pr.1, pr.2))

/-- Model of `content.includes(pat)`. -/
def containsSub (pat s : List Char) : Bool := (firstOcc pat s).isSome

/-- ECMA-262 `GetSubstitution` for a plain-string search value: in the
replacement text, a dollar sign followed by a dollar sign, ampersand,
backtick or apostrophe is substituted (escaped dollar, matched text,
text before the match, text after the match); every other character,
and a dollar sign in any other position, is copied literally.  This is
what `content.replace(original, fixed)` applies to `fixed`. -/
def getSubst (matched pre post : List Char) : List Char → List Char
  | [] => []
  | c :: rest =>
    if c = dollarC then
      match rest with
      | [] => [dollarC]
      | d :: rest2 =>
        if d = dollarC then dollarC :: getSubst matched pre post rest2
        else if d = amperC then matched ++ getSubst matched pre post rest2
        else if d = backtickC then pre ++ getSubst matched pre post rest2
        else if d = apostC then post ++ getSubst matched pre post rest2
        else dollarC :: d :: getSubst matched pre post rest2
    else c :: getSubst matched pre post rest

/-- True when the replacement text contains no dollar sign, in which
case `GetSubstitution` is the identity. -/
def noDollar (s : List Char) : Bool := s.all (fun c => c ≠ dollarC)

/-- Embedding of `applyFix` (fixer.ts): re-read the file's current
content, return `none` (no write) when the content does not include
`original`, otherwise write back the content with the first occurrence
of `original` replaced by `fixed` as JavaScript `String.replace` does. -/
def applyFix (original fixed content : List Char) : Option (List Char) :=
  match firstOcc original content with
  | none => none
  | some (pre, post) => some (pre ++ getSubst original pre post fixed ++ post)

/-
Fix Generator, embedded from `generateFixForSingleRule` in the
interactive handler (source file part_008).  The AI oracle is a
parameter mapping the call arguments (file, line, message, code
context) to an optional reply; the file system is a map from paths to
contents, constant during one bundle generation since the loop only
reads.
-/

/-- Decimal digit character. -/
def digitChar (n : Nat) : Char := Char.ofNat (48 + n)

/-- Fuel-based decimal rendering of a natural number (fuel is always
sufficient at `n + 1`). -/
def natCharsAux : Nat → Nat → List Char
  | 0, _ => []
  | fuel + 1, n =>
    if n < 10 then [digitChar n]
    else natCharsAux fuel (n / 10) ++ [digitChar (n % 10)]

def natChars (n : Nat) : List Char := natCharsAux (n + 1) n

/-- One oracle reply for `generateFix`: the inclusive line span to
replace and the replacement code.  Line numbers are integers, since
the reply is unvalidated oracle output. -/
structure FixData where
  startLine : Int
  endLine : Int
  fixedCode : List Char
  explanation : List Char

/-- One accepted location fix, the element type of a bundle's `fixes`. -/
structure LocationFix where
  file : List Char
  startLine : Int
  endLine : Int
  original : List Char
  fixed : List Char
  explanation : List Char

abbrev FixOracle := List Char → Nat → List Char → List Char → Option FixData

/-- Render lines with 1-indexed line numbers and a tab, starting at
number `k`. -/
def numberLines (k : Nat) : List (List Char) → List (List Char)
  | [] => []
  | l :: rest => (natChars k ++ tabC :: l) :: numberLines (k + 1) rest

/-- The ±10-line code context around a diagnostic line, with inline
line numbers, as built before each `generateFix` oracle call. -/
def contextOf (lines : List (List Char)) (line : Nat) : List Char :=
  let s := line - 11
  let e := min lines.length (line + 10)
  joinWith nlC (numberLines (s + 1) ((lines.drop s).take (e - s)))

/-- The validation gate on an oracle fix reply: start line positive,
end line at least the start line and at most the file's current line
count, replacement code non-empty. -/
def validFix (numLines : Nat) (d : FixData) : Bool :=
  (0 < d.startLine && d.startLine ≤ d.endLine && d.endLine ≤ (numLines : Int))
    && d.fixedCode ≠ []

/-- Build the accepted `LocationFix`: the `original` field captures
the file's current text over the accepted line span (slice from
startLine-1 to endLine). -/
def mkLocationFix (lines : List (List Char)) (fileFull : List Char) (d : FixData) :
    LocationFix :=
  { file := fileFull
    startLine := d.startLine
    endLine := d.endLine
    original := joinWith nlC
      ((lines.drop (d.startLine.toNat - 1)).take (d.endLine.toNat - (d.startLine.toNat - 1)))
    fixed := d.fixedCode
    explanation :=
      if d.explanation = [] then "No explanation provided".toList else d.explanation }

/-- The per-location fix loop of `generateFixForSingleRule`. -/
def genFixes (fs : List Char → List Char) (oracle : FixOracle) (msg : List Char) :
    List LintLocation → List LocationFix
  | [] => []
  | loc :: rest =>
    let lines := splitOnChar nlC (fs loc.fileFull)
    match oracle loc.fileFull loc.line msg (contextOf lines loc.line) with
    | some d =>
      if validFix lines.length d then
        mkLocationFix lines loc.fileFull d :: genFixes fs oracle msg rest
      else genFixes fs oracle msg rest
    | none => genFixes fs oracle msg rest

/-- Per-location acceptance: the optional accepted fix one location
contributes. -/
def acceptedFix (fs : List Char → List Char) (oracle : FixOracle) (msg : List Char)
    (loc : LintLocation) : Option LocationFix :=
  let lines := splitOnChar nlC (fs loc.fileFull)
  match oracle loc.fileFull loc.line msg (contextOf lines loc.line) with
  | some d =>
    if validFix lines.length d then some (mkLocationFix lines loc.fileFull d) else none
  | none => none

/-- The file's text over an inclusive 1-indexed line span, stated from
the claim's words (for comparison with the `original` field the code
captures). -/
def spanText (content : List Char) (s e : Nat) : List Char :=
  joinWith nlC (((splitOnChar nlC content).drop (s - 1)).take (e - s + 1))

structure ExplainData where
  problemDescription : List Char
  whyProblem : List Char
  howToFix : List Char
  priority : List Char

structure DisableData where
  modifiedConfig : List Char
  diffDescription : List Char

structure RuleFix where
  ruleId : List Char
  count : Nat
  severity : List Char
  explain : ExplainData
  disableConfig : DisableData
  fixes : List LocationFix

/-- Embedding of `generateFixForSingleRule`: `none` for the null-rule
gate, otherwise a bundle whose `count` is the number of accepted
fixes; failed explanation / disable-config oracle calls fall back to
fixed placeholders. -/
def generateFixForSingleRule (rule : ParsedRule) (fs : List Char → List Char)
    (explainReply : Option ExplainData) (disableReply : Option DisableData)
    (oracle : FixOracle) : Option RuleFix :=
  match rule.ruleId with
  | none => none
  | some rid =>
    let fixes := genFixes fs oracle (rule.sampleMessages.getD 0 []) rule.locations
    some
      { ruleId := rid
        count := fixes.length
        severity := rule.severity
        explain := explainReply.getD
          { problemDescription := "Failed to generate explanation".toList
            whyProblem := "N/A".toList
            howToFix := "Check ESLint documentation".toList
            priority := "medium".toList }
        disableConfig := disableReply.getD
          { modifiedConfig := [], diffDescription := "Failed to generate".toList }
        fixes := fixes }

/-
Session Manager reset discipline, embedded from the selection steps
of `analyzeCommand` (source file part_001, both the auto-fix loop and
the interactive loop use the same logic): before generating a fix for
a selected work item the loop compares the item's file with the
tracked `currentFile` and invokes `provider.resetSession()` exactly
when the tracked file is non-null and different; afterwards the
tracked file is updated.  A run is modelled by the sequence of files
of the successively selected work items.
-/

/-- One selection step: given the tracked current file (`none` models
`currentFile = null`) and the selected work item's file (the empty
list models a falsy `ruleFile`, which skips the whole block), return
the updated tracked file and how many `resetSession()` calls the step
performs. -/
def sessStep (cur : Option (List Char)) (f : List Char) : Option (List Char) × Nat :=
  if f ≠ [] ∧ cur ≠ some f then
    (some f, if cur = none then 0 else 1)
  else (cur, 0)

/-- The per-selection reset counts over a whole run, starting from a
null tracked file. -/
def sessRun : Option (List Char) → List (List Char) → List Nat
  | _, [] => []
  | cur, f :: fs => (sessStep cur f).2 :: sessRun (sessStep cur f).1 fs

/-- Reset counts as the specification states them, for the selections
after the first: one reset exactly when the newly selected item's
file differs from the immediately preceding one. -/
def specResets : List Char → List (List Char) → List Nat
  | _, [] => []
  | prev, f :: fs => (if f = prev then 0 else 1) :: specResets f fs

/-- Reset counts as the specification states them: never a reset at
the first selection, then `specResets`. -/
def specTrace : List (List Char) → List Nat
  | [] => []
  | f :: fs => 0 :: specResets f fs

/-
JSON values, printing and parsing.  The Claude provider
(src/src/providers/claude.ts) manipulates parsed JSON values
(`JSON.parse` results) and re-parses strings; `Json` models the value
space, `stringify` models `JSON.stringify` (no indentation), and
`jsonParse` models `JSON.parse`.  Mutual inductives are used so all
recursions are structural and computable.
-/

mutual

inductive Json where
  | null : Json
  | bool : Bool → Json
  | num : Int → Json
  | str : List Char → Json
  | arr : JArr → Json
  | obj : JObj → Json

inductive JArr where
  | nil : JArr
  | cons : Json → JArr → JArr

inductive JObj where
  | nil : JObj
  | cons : List Char → Json → JObj → JObj

end

def minusC : Char := Char.ofNat 45

/-- Digit test on the model's own character arithmetic. -/
def isDigitC (c : Char) : Bool := 48 ≤ c.toNat && c.toNat ≤ 57

/-- Lowercase hexadecimal digit. -/
def hexDig (n : Nat) : Char :=
  if n < 10 then Char.ofNat (48 + n) else Char.ofNat (87 + n)

/-- `JSON.stringify` escaping of one string character. -/
def escChar (c : Char) : List Char :=
  if c = quoteC then [backslashC, quoteC]
  else if c = backslashC then [backslashC, backslashC]
  else if c = nlC then [backslashC, 'n']
  else if c = crC then [backslashC, 'r']
  else if c = tabC then [backslashC, 't']
  else if c = Char.ofNat 8 then [backslashC, 'b']
  else if c = Char.ofNat 12 then [backslashC, 'f']
  else if c.toNat < 32 then
    [backslashC, 'u', '0', '0', hexDig (c.toNat / 16), hexDig (c.toNat % 16)]
  else [c]

def escBody : List Char → List Char
  | [] => []
  | c :: rest => escChar c ++ escBody rest

/-- A printed JSON string literal. -/
def strQuote (s : List Char) : List Char := quoteC :: escBody s ++ [quoteC]

/-- Decimal rendering of an integer. -/
def intChars (n : Int) : List Char :=
  if n < 0 then minusC :: natChars (-n).toNat else natChars n.toNat

mutual

/-- Model of `JSON.stringify` without indentation. -/
def stringify : Json → List Char
  | .null => "null".toList
  | .bool true => "true".toList
  | .bool false => "false".toList
  | .num n => intChars n
  | .str s => strQuote s
  | .arr .nil => [brackO, brackC]
  | .arr (.cons x xs) => brackO :: stringify x ++ arrTail xs ++ [brackC]
  | .obj .nil => [braceO, braceC]
  | .obj (.cons k v fs) =>
      braceO :: strQuote k ++ colonC :: stringify v ++ objTail fs ++ [braceC]

def arrTail : JArr → List Char
  | .nil => []
  | .cons x xs => commaC :: stringify x ++ arrTail xs

def objTail : JObj → List Char
  | .nil => []
  | .cons k v fs => commaC :: strQuote k ++ colonC :: stringify v ++ objTail fs

end

mutual

/-- Fuel sufficient to parse the printed form of a value. -/
def jfuel : Json → Nat
  | .null => 1
  | .bool _ => 1
  | .num _ => 1
  | .str _ => 1
  | .arr a => 1 + afuel a
  | .obj o => 1 + ofuel o

def afuel : JArr → Nat
  | .nil => 1
  | .cons v t => 1 + max (jfuel v) (afuel t)

def ofuel : JObj → Nat
  | .nil => 1
  | .cons _ v t => 1 + max (jfuel v) (ofuel t)

end

/- JSON parsing (model of `JSON.parse`). -/

def isJsonWs (c : Char) : Bool :=
  c = ' ' || c = tabC || c = nlC || c = crC

def skipWs (s : List Char) : List Char := s.dropWhile isJsonWs

def hexVal (c : Char) : Option Nat :=
  if 48 ≤ c.toNat ∧ c.toNat ≤ 57 then some (c.toNat - 48)
  else if 97 ≤ c.toNat ∧ c.toNat ≤ 102 then some (c.toNat - 87)
  else if 65 ≤ c.toNat ∧ c.toNat ≤ 70 then some (c.toNat - 55)
  else none

/-- Prefix test recursing on the pattern first (reduces even when the
subject's tail is not a literal). -/
def isPre : List Char → List Char → Bool
  | [], _ => true
  | a :: as, s =>
    match s with
    | [] => false
    | b :: bs => (a == b) && isPre as bs

/-- Combine four hexadecimal digits. -/
def hex4 (a b c d : Char) : Option Nat :=
  match hexVal a, hexVal b, hexVal c, hexVal d with
  | some va, some vb, some vc, some vd =>
    some (((va * 16 + vb) * 16 + vc) * 16 + vd)
  | _, _, _, _ => none

/-- One step of the string-body parser with the lower-fuel
continuation abstracted. -/
def parseStrStep (k : List Char → Option (List Char × List Char)) :
    List Char → Option (List Char × List Char)
  | [] => none
  | c :: rest =>
    if c = quoteC then some ([], rest)
    else if c = backslashC then
      match rest with
      | [] => none
      | e :: rest2 =>
        if e = quoteC then (k rest2).map (fun p => (quoteC :: p.1, p.2))
        else if e = backslashC then (k rest2).map (fun p => (backslashC :: p.1, p.2))
        else if e = slashC then (k rest2).map (fun p => (slashC :: p.1, p.2))
        else if e = 'b' then (k rest2).map (fun p => (Char.ofNat 8 :: p.1, p.2))
        else if e = 'f' then (k rest2).map (fun p => (Char.ofNat 12 :: p.1, p.2))
        else if e = 'n' then (k rest2).map (fun p => (nlC :: p.1, p.2))
        else if e = 'r' then (k rest2).map (fun p => (crC :: p.1, p.2))
        else if e = 't' then (k rest2).map (fun p => (tabC :: p.1, p.2))
        else if e = 'u' then
          match rest2 with
          | a :: b :: c2 :: d :: rest3 =>
            (hex4 a b c2 d).bind (fun v =>
              (k rest3).map (fun p => (Char.ofNat v :: p.1, p.2)))
          | _ => none
        else none
    else (k rest).map (fun p => (c :: p.1, p.2))

/-- Parse a JSON string body after the opening quote, returning the
decoded characters and the input after the closing quote.  The fuel
decreases once per decoded character; one unit more than the input
length always suffices. -/
def parseStrBody : Nat → List Char → Option (List Char × List Char)
  | 0, _ => none
  | fuel + 1, s => parseStrStep (parseStrBody fuel) s

/-- Longest digit prefix and the remainder. -/
def takeDigits : List Char → List Char × List Char
  | [] => ([], [])
  | c :: rest =>
    if isDigitC c then
      let p := takeDigits rest
      (c :: p.1, p.2)
    else ([], c :: rest)

def digitsToNat (ds : List Char) : Nat :=
  ds.foldl (fun acc c => 10 * acc + (c.toNat - 48)) 0

/-- Parse a JSON integer (the model restricts JSON numbers to
integers, which covers every number this program produces or
consumes). -/
def parseNum : List Char → Option (Int × List Char)
  | [] => none
  | c :: rest =>
    if c = minusC then
      match takeDigits rest with
      | (d :: ds, r) => some (-(digitsToNat (d :: ds) : Int), r)
      | ([], _) => none
    else
      match takeDigits (c :: rest) with
      | (d :: ds, r) => some ((digitsToNat (d :: ds) : Int), r)
      | ([], _) => none

/-- One step of the value parser: the body of `parseVal` with the
lower-fuel object/array continuations abstracted. -/
def parseValStep (pm : List Char → Option (JObj × List Char))
    (pe : List Char → Option (JArr × List Char)) :
    List Char → Option (Json × List Char)
  | [] => none
  | c :: rest =>
    if c = quoteC then
      (parseStrBody (rest.length + 1) rest).map (fun p => (Json.str p.1, p.2))
    else if c = braceO then
      match skipWs rest with
      | d :: rest1 =>
        if d = braceC then some (Json.obj JObj.nil, rest1)
        else (pm (d :: rest1)).map (fun p => (Json.obj p.1, p.2))
      | [] => none
    else if c = brackO then
      match skipWs rest with
      | d :: rest1 =>
        if d = brackC then some (Json.arr JArr.nil, rest1)
        else (pe (d :: rest1)).map (fun p => (Json.arr p.1, p.2))
      | [] => none
    else if isPre ("null".toList) (c :: rest) then
      some (Json.null, (c :: rest).drop 4)
    else if isPre ("true".toList) (c :: rest) then
      some (Json.bool true, (c :: rest).drop 4)
    else if isPre ("false".toList) (c :: rest) then
      some (Json.bool false, (c :: rest).drop 5)
    else (parseNum (c :: rest)).map (fun p => (Json.num p.1, p.2))

/-- One step of the object-member parser: the body of `parseMembers`
with the lower-fuel continuations abstracted. -/
def parseMembersStep (pv : List Char → Option (Json × List Char))
    (pm : List Char → Option (JObj × List Char)) :
    List Char → Option (JObj × List Char)
  | c :: rest =>
    if c = quoteC then
      match parseStrBody (rest.length + 1) rest with
      | some (k, s1) =>
        match skipWs s1 with
        | d :: s2 =>
          if d = colonC then
            match pv (skipWs s2) with
            | some (v, s3) =>
              match skipWs s3 with
              | e :: s4 =>
                if e = commaC then
                  (pm (skipWs s4)).map (fun p => (JObj.cons k v p.1, p.2))
                else if e = braceC then some (JObj.cons k v JObj.nil, s4)
                else none
              | [] => none
            | none => none
          else none
        | [] => none
      | none => none
    else none
  | [] => none

/-- One step of the array-element parser. -/
def parseElemsStep (pv : List Char → Option (Json × List Char))
    (pe : List Char → Option (JArr × List Char))
    (s : List Char) : Option (JArr × List Char) :=
  match pv s with
  | some (v, s1) =>
    match skipWs s1 with
    | e :: s2 =>
      if e = commaC then
        (pe (skipWs s2)).map (fun p => (JArr.cons v p.1, p.2))
      else if e = brackC then some (JArr.cons v JArr.nil, s2)
      else none
    | [] => none
  | none => none

mutual

/-- Parse one JSON value at the head of the input (no leading
whitespace), returning the value and the unconsumed remainder. -/
def parseVal : Nat → List Char → Option (Json × List Char)
  | 0, _ => none
  | fuel + 1, s => parseValStep (parseMembers fuel) (parseElems fuel) s

/-- Parse the members of a non-empty object, consuming through the
closing brace. -/
def parseMembers : Nat → List Char → Option (JObj × List Char)
  | 0, _ => none
  | fuel + 1, s => parseMembersStep (parseVal fuel) (parseMembers fuel) s

/-- Parse the elements of a non-empty array, consuming through the
closing bracket. -/
def parseElems : Nat → List Char → Option (JArr × List Char)
  | 0, _ => none
  | fuel + 1, s => parseElemsStep (parseVal fuel) (parseElems fuel) s

end

/-- Model of `JSON.parse`: skip surrounding whitespace and require the
whole input to be one value. -/
def jsonParse (s : List Char) : Option Json :=
  match parseVal (s.length + 1) (skipWs s) with
  | some (v, rest) => if skipWs rest = [] then some v else none
  | none => none

/-- True when the input does not start with a decimal digit (the one
shape that could extend a just-parsed number). -/
def noDigitHead : List Char → Bool
  | [] => true
  | c :: _ => !(isDigitC c)

/-
Analyzer invocation, embedded from `runESLint` in
src/src/eslint/runner.ts.  The child process's observable behaviour is
the exit status together with the captured stdout; on a non-zero exit
the thrown exec error may or may not expose a `stdout` property.
`JSON.parse` is modelled by `jsonParse`; a `none` result of `runESLint`
models a propagated (re)thrown error, i.e. a failed scan.
-/

/-- Outcome of `execAsync npx eslint …`: a zero exit with its stdout,
or a non-zero exit whose error object optionally carries stdout. -/
inductive ExecOutcome where
  | ok : List Char → ExecOutcome
  | err : Option (List Char) → ExecOutcome

/-- `runESLint`: parse stdout on success; on failure, fall back to the
error's stdout when it is non-empty and parses as JSON, otherwise
rethrow. -/
def runESLint : ExecOutcome → Option Json
  | .ok s => jsonParse s
  | .err os =>
    match os with
    | some s =>
      if s = [] then none
      else
        match jsonParse s with
        | some j => some j
        | none => none
    | none => none

/-
Balanced-brace extraction, embedded from `extractJsonFromString` in
src/src/providers/claude.ts.  The scanner below is the `for` loop of
the source; its state is the current nesting depth (a JavaScript
number, hence an integer), the in-string flag and the escape flag.  A
`some` result is the consumed segment `cleaned.substring(startIndex,
endIndex + 1)` at the `break`; `none` models `endIndex === -1`.
-/

/-- The ASCII part of JavaScript whitespace (`\s`, `trim`): space,
tab, line feed, carriage return, form feed, vertical tab. -/
def isJsWs (c : Char) : Bool :=
  c = ' ' || c = tabC || c = nlC || c = crC
    || c = Char.ofNat 12 || c = Char.ofNat 11

/-- `str.trim()`. -/
def trimJs (s : List Char) : List Char :=
  ((s.dropWhile isJsWs).reverse.dropWhile isJsWs).reverse

/-- The leading-fence strip
`cleaned.replace(/^xxx(?:json)?\s*\n?/, '')` where `xxx` is three
backticks: if the string starts with three backticks, drop them, then
an optional literal `json`, then any whitespace (the trailing `\n?` is
subsumed by the greedy `\s*`); otherwise the regex does not match and
the string is unchanged. -/
def stripLeadFence (s : List Char) : List Char :=
  match s with
  | a :: b :: c :: t =>
    if a = backtickC ∧ b = backtickC ∧ c = backtickC then
      (if isPre ('j' :: 's' :: 'o' :: 'n' :: []) t then t.drop 4 else t).dropWhile
        isJsWs
    else s
  | _ => s

/-- The trailing-fence strip `.replace(/\n?xxx\s*$/, '')` with `xxx`
three backticks: drop trailing whitespace, then a required triple
backtick, then one optional newline; no match leaves the string
unchanged. -/
def stripTrailFence (s : List Char) : List Char :=
  match s.reverse.dropWhile isJsWs with
  | a :: b :: c :: r2 =>
    if a = backtickC ∧ b = backtickC ∧ c = backtickC then
      match r2 with
      | d :: r3 => if d = nlC then r3.reverse else r2.reverse
      | [] => []
    else s
  | _ => s

/-- `cleaned.indexOf(chr(123))`: the suffix of the string starting at
its first opening brace, `none` when there is none. -/
def firstBraceSuffix : List Char → Option (List Char)
  | [] => none
  | c :: rest => if c = braceO then some (c :: rest) else firstBraceSuffix rest

/-- The balanced-brace scan loop.  Each branch mirrors one `if` of the
source: a pending escape consumes the character; a backslash inside a
string sets the escape flag; a double quote toggles the in-string
flag; outside a string an opening brace increments the depth and a
closing brace decrements it, breaking when the depth reaches zero.
The consumed segment (up to and including the breaking brace) is
returned. -/
def scanLoop : List Char → Int → Bool → Bool → Option (List Char)
  | [], _, _, _ => none
  | c :: rest, depth, inStr, pend =>
    if pend = true then
      (scanLoop rest depth inStr false).map (fun out => c :: out)
    else if c = backslashC ∧ inStr = true then
      (scanLoop rest depth inStr true).map (fun out => c :: out)
    else if c = quoteC then
      (scanLoop rest depth (!inStr) false).map (fun out => c :: out)
    else if inStr = false ∧ c = braceO then
      (scanLoop rest (depth + 1) inStr false).map (fun out => c :: out)
    else if inStr = false ∧ c = braceC then
      if depth = 1 then some [c]
      else (scanLoop rest (depth - 1) inStr false).map (fun out => c :: out)
    else
      (scanLoop rest depth inStr false).map (fun out => c :: out)

/-- `extractJsonFromString`: reject the empty string, trim, strip the
markdown fences, locate the first opening brace, scan for the balanced
object, and `JSON.parse` the scanned segment (`none` on a parse
error). -/
def extractJsonFromString (s : List Char) : Option Json :=
  if s = [] then none
  else
    match firstBraceSuffix (stripTrailFence (stripLeadFence (trimJs s))) with
    | none => none
    | some suf =>
      match scanLoop suf 0 false false with
      | none => none
      | some seg => jsonParse seg

/-- A well-formed string-literal body: every backslash is followed by
a further character and every double quote is preceded by a
backslash. -/
inductive LitBody : List Char → Prop where
  | nil : LitBody []
  | esc (c : Char) (t : List Char) : LitBody t → LitBody (backslashC :: c :: t)
  | chr (c : Char) (t : List Char) :
      c ≠ quoteC → c ≠ backslashC → LitBody t → LitBody (c :: t)

/-- Characters inert to the scanner outside of strings. -/
abbrev scanPlain (c : Char) : Prop := c ≠ quoteC ∧ c ≠ braceO ∧ c ≠ braceC

/-- A concrete assistant reply: the target object sits inside prose,
and its string value contains a closing brace. -/
def c6input : List Char :=
  "Sure! The JSON is: \x7b\"a\": \"text with \x7d inside\"\x7d Hope this helps.".toList

/-- The object embedded in `c6input`. -/
def c6json : Json :=
  Json.obj (JObj.cons ('a' :: [])
    (Json.str "text with \x7d inside".toList) JObj.nil)

/-
Response normalization, embedded from the tail of `callClaude` in
src/src/providers/claude.ts (after `JSON.parse(stdout)` succeeded).
The parsed reply is modelled by the JSON values of its relevant
fields, `none` standing for an absent field.  Schema property names
are identifiers, so an array (whose own keys are numeric indices) is
modelled as exposing no schema field.
-/

/-- The relevant fields of the parsed assistant reply. -/
structure ClaudeResp where
  is_error : Option Json
  error : Option Json
  message : Option Json
  structured_output : Option Json
  result : Option Json

/-- JavaScript truthiness of a JSON value. -/
def truthy : Json → Bool
  | .null => false
  | .bool b => b
  | .num n => decide (n ≠ 0)
  | .str s => decide (s ≠ [])
  | .arr _ => true
  | .obj _ => true

/-- Truthiness of a possibly absent field (`undefined` is falsy). -/
def truthyO : Option Json → Bool
  | none => false
  | some j => truthy j

/-- `key in obj` over the parsed object's own keys. -/
def objHasKey : JObj → List Char → Bool
  | .nil, _ => false
  | .cons k _ t, key => if k = key then true else objHasKey t key

/-- `hasSchemaFields`: the candidate is a truthy object value exposing
at least one of the schema's property names. -/
def hasSchemaFields (fields : List (List Char)) : Json → Bool
  | .obj o => fields.any (fun k => objHasKey o k)
  | _ => false

/-- `a || b` for a possibly absent left operand. -/
def jsOrD (a : Option Json) (b : Json) : Json :=
  match a with
  | some x => if truthy x then x else b
  | none => b

/-- `response.error || response.message || 'Unknown error from Claude'`. -/
def errVal (r : ClaudeResp) : Json :=
  jsOrD r.error (jsOrD r.message (Json.str "Unknown error from Claude".toList))

/-- The `'No data found in response'` failure message. -/
def noDataMsg : Json := Json.str "No data found in response".toList

/-- `typeof x === 'object'` on a JSON value (`null` included). -/
def jsTypeofObject : Json → Bool
  | .null => true
  | .arr _ => true
  | .obj _ => true
  | _ => false

/-- Outcome of normalization: a payload or an error value. -/
inductive NormResult where
  | ok : Json → NormResult
  | fail : Json → NormResult

/-- The `result`-field fallback of `callClaude`: use the result
directly when it is an object exposing a schema field; extract from it
when it is a non-blank string and the extracted value is truthy and
exposes a schema field; otherwise fail. -/
def normFromResult (fields : List (List Char)) : Option Json → NormResult
  | none => NormResult.fail noDataMsg
  | some res =>
    if jsTypeofObject res = true ∧ hasSchemaFields fields res = true then
      NormResult.ok res
    else
      match res with
      | Json.str s =>
        if trimJs s = [] then NormResult.fail noDataMsg
        else
          match extractJsonFromString s with
          | some p =>
            if truthy p = true ∧ hasSchemaFields fields p = true then
              NormResult.ok p
            else NormResult.fail noDataMsg
          | none => NormResult.fail noDataMsg
      | _ => NormResult.fail noDataMsg

/-- Normalization of a parsed reply: explicit errors fail with the
reply's error value; a truthy structured-output slot exposing a schema
field is used directly; otherwise the result field is consulted. -/
def normalize (fields : List (List Char)) (r : ClaudeResp) : NormResult :=
  if truthyO r.is_error = true ∨ truthyO r.error = true then
    NormResult.fail (errVal r)
  else
    match r.structured_output with
    | some so =>
      if truthy so = true ∧ hasSchemaFields fields so = true then NormResult.ok so
      else normFromResult fields r.result
    | none => normFromResult fields r.result

/-- A concrete reply carrying an explicit error flag. -/
def w5resp : ClaudeResp :=
  { is_error := some (Json.bool true), error := none, message := none,
    structured_output := none, result := none }

/-- The markdown wrapping of a payload text:
three backticks, `json`, a newline, the payload, a newline, three
backticks. -/
def fenceWrap (p : List Char) : List Char :=
  "```json\n".toList ++ p ++ "\n```".toList

/-- A concrete payload exposing the schema field `fixes`. -/
def w7json : Json :=
  Json.obj (JObj.cons "fixes".toList (Json.num 1) JObj.nil)

theorem dedupAux_length_le {α : Type} [DecidableEq α] (l : List α) :
    ∀ seen, (dedupAux seen l).length ≤ l.length := by
  induction l with
  | nil => intro seen; simp [dedupAux]
  | cons x xs ih =>
    intro seen
    by_cases h : x ∈ seen
    · simp only [dedupAux, if_pos h]
      exact Nat.le_succ_of_le (ih seen)
    · simp only [dedupAux, if_neg h, List.length_cons]
      exact Nat.succ_le_succ (ih (x :: seen))

theorem dedup_length_le {α : Type} [DecidableEq α] (l : List α) :
    (dedup l).length ≤ l.length := dedupAux_length_le l []

theorem mem_of_mem_dedupAux {α : Type} [DecidableEq α] {l : List α} {x : α} :
    ∀ {seen}, x ∈ dedupAux seen l → x ∈ l := by
  induction l with
  | nil => intro seen h; simp [dedupAux] at h
  | cons y ys ih =>
    intro seen h
    by_cases hy : y ∈ seen
    · simp only [dedupAux, if_pos hy] at h
      exact List.mem_cons_of_mem _ (ih h)
    · simp only [dedupAux, if_neg hy, List.mem_cons] at h
      rcases h with h | h
      · exact h ▸ List.mem_cons_self _ _
      · exact List.mem_cons_of_mem _ (ih h)

theorem mem_of_mem_dedup {α : Type} [DecidableEq α] {l : List α} {x : α}
    (h : x ∈ dedup l) : x ∈ l := mem_of_mem_dedupAux h

theorem insertG_weight (w : FlatMsg → Nat) (gs : List (RuleKey × List FlatMsg))
    (m : FlatMsg) : msgWeight w (insertG gs m) = msgWeight w gs + w m := by
  induction gs with
  | nil => simp [insertG, msgWeight]
  | cons g gs ih =>
    obtain ⟨k, ms⟩ := g
    by_cases h : k = m.ruleId
    · simp only [insertG, if_pos h, msgWeight, List.map_cons, List.sum_cons,
        List.map_append, List.sum_append, List.map_nil, List.sum_nil]
      omega
    · simp only [insertG, if_neg h, msgWeight, List.map_cons, List.sum_cons]
      have := ih
      simp only [msgWeight] at this
      omega

theorem foldl_insertG_weight (w : FlatMsg → Nat) (msgs : List FlatMsg) :
    ∀ gs, msgWeight w (msgs.foldl insertG gs) = msgWeight w gs + (msgs.map w).sum := by
  induction msgs with
  | nil => intro gs; simp
  | cons m msgs ih =>
    intro gs
    simp only [List.foldl_cons, List.map_cons, List.sum_cons, ih, insertG_weight]
    omega

theorem groupByRule_weight (w : FlatMsg → Nat) (msgs : List FlatMsg) :
    msgWeight w (groupByRule msgs) = (msgs.map w).sum := by
  have := foldl_insertG_weight w msgs []
  simpa [groupByRule, msgWeight] using this

theorem sum_map_one (msgs : List FlatMsg) : (msgs.map (fun _ => 1)).sum = msgs.length := by
  induction msgs with
  | nil => rfl
  | cons m msgs ih => simp only [List.map_cons, List.sum_cons, ih, List.length_cons]; omega

theorem sum_map_indicator (p : FlatMsg → Bool) (msgs : List FlatMsg) :
    (msgs.map (fun m => if p m then 1 else 0)).sum = msgs.countP p := by
  induction msgs with
  | nil => rfl
  | cons m msgs ih =>
    simp only [List.map_cons, List.sum_cons, List.countP_cons, ih]
    by_cases h : p m
    · simp only [if_pos h, h]; omega
    · simp only [if_neg h, h]; omega

/-- C1. The Finding Aggregator contract: the work-item counts sum to
the number of input diagnostics, `uniqueRules` is the number of work
items, `fixable` counts the locations carrying a machine fix across
all work items, and the empty input yields the all-zero summary and no
work items. -/
theorem claim_C1 (results : List ESLintResult) :
    ((parseESLintResult results).rules.map (fun r => r.count)).sum
        = (results.map (fun r => r.messages.length)).sum
    ∧ (parseESLintResult results).summary.uniqueRules
        = (parseESLintResult results).rules.length
    ∧ (parseESLintResult results).summary.fixable
        = ((parseESLintResult results).rules.map
            (fun r => (r.locations.filter (fun l => l.hasFix)).length)).sum
    ∧ parseESLintResult []
        = { summary := { totalIssues := 0, errors := 0, warnings := 0,
                         fixable := 0, uniqueRules := 0 },
            rules := [] } := by
  refine ⟨?_, rfl, ?_, rfl⟩
  · have hlen : (allMessages results).length
        = (results.map (fun r => r.messages.length)).sum := by
      induction results with
      | nil => rfl
      | cons r rest ih => simp [allMessages, ih]
    have hw := groupByRule_weight (fun _ => 1) (allMessages results)
    rw [sum_map_one] at hw
    have hmap : ((parseESLintResult results).rules.map (fun r => r.count)).sum
        = msgWeight (fun _ => 1) (groupByRule (allMessages results)) := by
      simp only [parseESLintResult, msgWeight, List.map_map]
      congr 1
      apply List.map_congr_left
      intro g _
      simp [mkRule, Function.comp, sum_map_one]
    rw [hmap, hw, hlen]
  · have hw := groupByRule_weight (fun m => if m.hasFix then 1 else 0) (allMessages results)
    rw [sum_map_indicator] at hw
    have hfix : (parseESLintResult results).summary.fixable
        = (allMessages results).countP (fun m => m.hasFix) := by
      simp [parseESLintResult, List.countP_eq_length_filter]
    have hmap : ((parseESLintResult results).rules.map
          (fun r => (r.locations.filter (fun l => l.hasFix)).length)).sum
        = msgWeight (fun m => if m.hasFix then 1 else 0)
            (groupByRule (allMessages results)) := by
      simp only [parseESLintResult, msgWeight, List.map_map]
      congr 1
      apply List.map_congr_left
      intro g _
      simp only [Function.comp, mkRule]
      rw [List.filter_map, List.length_map, ← List.countP_eq_length_filter,
        sum_map_indicator]
      rfl
    rw [hfix, hmap, hw]

/-- C10. Sample capping in the aggregator: for every produced rule
group, `sampleMessages` is the deduplication of the messages of only
the first three diagnostics of the group, `sampleSource` the
deduplication of their non-empty source snippets; both lists have at
most three entries and draw only from the first three diagnostics. -/
theorem claim_C10 (results : List ESLintResult) :
    ∀ r ∈ (parseESLintResult results).rules,
      ∃ g ∈ groupByRule (allMessages results),
        r.sampleMessages = dedup ((g.2.take 3).map (fun m => m.message))
      ∧ r.sampleSource
          = dedup (((g.2.take 3).filterMap (fun m => m.source)).filter (fun s => s ≠ []))
      ∧ r.sampleMessages.length ≤ 3
      ∧ r.sampleSource.length ≤ 3
      ∧ (∀ x ∈ r.sampleMessages, x ∈ (g.2.take 3).map (fun m => m.message))
      ∧ (∀ s ∈ r.sampleSource, s ≠ [] ∧ ∃ mm ∈ g.2.take 3, mm.source = some s) := by
  intro r hr
  simp only [parseESLintResult, List.mem_map] at hr
  obtain ⟨g, hg, hgr⟩ := hr
  refine ⟨g, hg, ?_, ?_, ?_, ?_, ?_, ?_⟩
  · rw [← hgr]; rfl
  · rw [← hgr]; rfl
  · rw [← hgr]
    calc (mkRule g).sampleMessages.length
        ≤ ((g.2.take 3).map (fun m => m.message)).length := dedup_length_le _
      _ ≤ 3 := by
          rw [List.length_map]
          exact le_trans (List.length_take_le 3 g.2) (le_refl 3)
  · rw [← hgr]
    calc (mkRule g).sampleSource.length
        ≤ (((g.2.take 3).filterMap (fun m => m.source)).filter (fun s => s ≠ [])).length :=
          dedup_length_le _
      _ ≤ ((g.2.take 3).filterMap (fun m => m.source)).length := List.length_filter_le _ _
      _ ≤ (g.2.take 3).length := List.length_filterMap_le _ _
      _ ≤ 3 := List.length_take_le 3 g.2
  · intro x hx
    rw [← hgr] at hx
    exact mem_of_mem_dedup hx
  · intro s hs
    rw [← hgr] at hs
    have hmem := mem_of_mem_dedup hs
    rw [List.mem_filter] at hmem
    obtain ⟨hmem, hne⟩ := hmem
    rw [List.mem_filterMap] at hmem
    obtain ⟨mm, hmm, hsrc⟩ := hmem
    refine ⟨by simpa using hne, mm, hmm, hsrc⟩

/-- Concrete instance of the sample-capping bound on a one-diagnostic
input. -/
theorem claim_C10_witness :
    ∃ g ∈ groupByRule (allMessages w10results),
      w10rule.sampleMessages = dedup ((g.2.take 3).map (fun m => m.message))
    ∧ w10rule.sampleSource
        = dedup (((g.2.take 3).filterMap (fun m => m.source)).filter (fun s => s ≠ []))
    ∧ w10rule.sampleMessages.length ≤ 3
    ∧ w10rule.sampleSource.length ≤ 3
    ∧ (∀ x ∈ w10rule.sampleMessages, x ∈ (g.2.take 3).map (fun m => m.message))
    ∧ (∀ s ∈ w10rule.sampleSource, s ≠ [] ∧ ∃ mm ∈ g.2.take 3, mm.source = some s) :=
  claim_C10 w10results w10rule (List.Mem.head _)

theorem firstOcc_sound (pat : List Char) :
    ∀ s pre post, firstOcc pat s = some (pre, post) →
      s = pre ++ pat ++ post ∧ ∀ p q, s = p ++ pat ++ q → pre.length ≤ p.length := by
  intro s
  induction s with
  | nil =>
    intro pre post h
    simp only [firstOcc] at h
    split at h
    case isTrue hp =>
      have hpat : pat = [] := List.prefix_nil.mp (List.isPrefixOf_iff_prefix.mp hp)
      simp only [Option.some.injEq, Prod.mk.injEq] at h
      obtain ⟨h1, h2⟩ := h
      subst h1; subst h2
      exact ⟨by simp [hpat], fun p q _ => Nat.zero_le _⟩
    case isFalse hp => exact Option.noConfusion h
  | cons c rest ih =>
    intro pre post h
    simp only [firstOcc] at h
    split at h
    case isTrue hp =>
      obtain ⟨t, ht⟩ := List.isPrefixOf_iff_prefix.mp hp
      simp only [Option.some.injEq, Prod.mk.injEq] at h
      obtain ⟨h1, h2⟩ := h
      subst h1
      have hdrop : (c :: rest).drop pat.length = t := by
        rw [← ht, List.drop_left]
      rw [hdrop] at h2
      subst h2
      exact ⟨by simp [← ht], fun p q _ => Nat.zero_le _⟩
    case isFalse hp =>
      rw [Option.map_eq_some'] at h
      obtain ⟨⟨pr1, pr2⟩, hfo, hpr⟩ := h
      obtain ⟨hs, hmin⟩ := ih pr1 pr2 hfo
      simp only [Prod.mk.injEq] at hpr
      obtain ⟨h1, h2⟩ := hpr
      subst h1; subst h2
      constructor
      · simp [hs]
      · intro p q hpq
        cases p with
        | nil =>
          exfalso
          apply hp
          apply List.isPrefixOf_iff_prefix.mpr
          exact ⟨q, by simpa using hpq.symm⟩
        | cons a p1 =>
          simp only [List.cons_append, List.cons.injEq] at hpq
          obtain ⟨_, hrest⟩ := hpq
          simpa using Nat.succ_le_succ (hmin p1 q hrest)

theorem firstOcc_complete (pat : List Char) :
    ∀ s, firstOcc pat s = none → ∀ p q, s ≠ p ++ pat ++ q := by
  intro s
  induction s with
  | nil =>
    intro h p q hpq
    simp only [firstOcc] at h
    split at h
    case isTrue hp => exact Option.noConfusion h
    case isFalse hp =>
      have hlen := congrArg List.length hpq
      simp only [List.length_nil, List.length_append] at hlen
      have hpat : pat = [] := List.length_eq_zero.mp (by omega)
      subst hpat
      simp [List.isPrefixOf] at hp
  | cons c rest ih =>
    intro h p q hpq
    simp only [firstOcc] at h
    split at h
    case isTrue hp => exact Option.noConfusion h
    case isFalse hp =>
      rw [Option.map_eq_none'] at h
      cases p with
      | nil =>
        apply hp
        apply List.isPrefixOf_iff_prefix.mpr
        exact ⟨q, by simpa using hpq.symm⟩
      | cons a p1 =>
        simp only [List.cons_append, List.cons.injEq] at hpq
        exact ih h p1 q hpq.2

theorem containsSub_iff (pat s : List Char) :
    containsSub pat s = true ↔ ∃ p q, s = p ++ pat ++ q := by
  constructor
  · intro h
    simp only [containsSub, Option.isSome_iff_exists] at h
    obtain ⟨⟨pre, post⟩, hfo⟩ := h
    exact ⟨pre, post, (firstOcc_sound pat s pre post hfo).1⟩
  · intro ⟨p, q, hpq⟩
    simp only [containsSub, Option.isSome_iff_exists]
    cases hfo : firstOcc pat s with
    | none => exact absurd hpq (firstOcc_complete pat s hfo p q)
    | some pr => exact ⟨pr, rfl⟩

theorem getSubst_noDollar (matched pre post : List Char) :
    ∀ s, noDollar s = true → getSubst matched pre post s = s := by
  intro s
  induction s with
  | nil => intro _; rfl
  | cons c rest ih =>
    intro h
    simp only [noDollar, List.all_cons, Bool.and_eq_true, decide_eq_true_eq] at h
    obtain ⟨hc, hrest⟩ := h
    rw [getSubst.eq_def]
    simp only [if_neg hc]
    rw [ih (by simpa [noDollar] using hrest)]

/-- C2 counterexample: with replacement text consisting of two dollar
signs, `String.replace` writes a single dollar sign, not the literal
replacement text, so the written content is not prefix ++ fixed ++
suffix as the claim states. -/
theorem claim_C2_counterexample :
    applyFix ("a".toList) ("$$".toList) ("ab".toList) = some ("$b".toList)
  ∧ some ("$b".toList) ≠ some (([] : List Char) ++ "$$".toList ++ "b".toList) := by
  constructor
  · rfl
  · decide

/-- C2 as amended: `applyFix` fails (writing nothing) exactly when the
current content does not contain `fix.original`; on success it writes
the prefix before the first occurrence, then `fix.fixed` transformed
by the `String.replace` dollar-pattern substitution, then the suffix —
and when `fix.fixed` contains no dollar sign this is exactly prefix ++
fixed ++ suffix. -/
theorem claim_C2_amended (original fixed content : List Char) :
    (containsSub original content = false → applyFix original fixed content = none)
  ∧ (containsSub original content = true ↔ ∃ p q, content = p ++ original ++ q)
  ∧ (∀ pre post, firstOcc original content = some (pre, post) →
       content = pre ++ original ++ post
     ∧ (∀ p q, content = p ++ original ++ q → pre.length ≤ p.length)
     ∧ applyFix original fixed content
         = some (pre ++ getSubst original pre post fixed ++ post)
     ∧ (noDollar fixed = true →
          applyFix original fixed content = some (pre ++ fixed ++ post))) := by
  refine ⟨?_, containsSub_iff original content, ?_⟩
  · intro h
    simp only [containsSub] at h
    cases hfo : firstOcc original content with
    | none => simp [applyFix, hfo]
    | some pr => rw [hfo] at h; simp at h
  · intro pre post hfo
    obtain ⟨hs, hmin⟩ := firstOcc_sound original content pre post hfo
    refine ⟨hs, hmin, by simp [applyFix, hfo], ?_⟩
    intro hnd
    simp [applyFix, hfo, getSubst_noDollar original pre post fixed hnd]

theorem claim_C2_amended_witness :
    applyFix ("x".toList) ("y".toList) ("axb".toList)
      = some ("a".toList ++ "y".toList ++ "b".toList) :=
  ((claim_C2_amended ("x".toList) ("y".toList) ("axb".toList)).2.2
    ("a".toList) ("b".toList) (by decide)).2.2.2 (by decide)

/-- C3 counterexample: a double-apply does occur.  First call on file
content "a" with original "a", fixed "aa" succeeds yielding "aa";
the second call with the same fix succeeds again yielding "aaa",
contradicting the claim that the second call always fails. -/
theorem claim_C3_counterexample :
    applyFix ("a".toList) ("aa".toList) ("a".toList) = some ("aa".toList)
  ∧ applyFix ("a".toList) ("aa".toList) ("aa".toList) = some ("aaa".toList) := by
  constructor
  · rfl
  · rfl

/-- C3 as amended: after a successful `applyFix`, a second call with
the same fix fails (leaving the file unwritten) exactly when the
resulting content no longer contains `fix.original`; when the
replacement reintroduces the original text the second call succeeds
and applies again. -/
theorem claim_C3_amended (original fixed content result : List Char)
    (_h : applyFix original fixed content = some result) :
    (containsSub original result = false → applyFix original fixed result = none)
  ∧ (containsSub original result = true →
       ∃ r2, applyFix original fixed result = some r2)
  ∧ (containsSub original result = true ↔ ∃ p q, result = p ++ original ++ q) := by
  refine ⟨?_, ?_, containsSub_iff original result⟩
  · intro hc
    simp only [containsSub] at hc
    cases hfo : firstOcc original result with
    | none => simp [applyFix, hfo]
    | some pr => rw [hfo] at hc; simp at hc
  · intro hc
    simp only [containsSub, Option.isSome_iff_exists] at hc
    obtain ⟨⟨pre, post⟩, hfo⟩ := hc
    exact ⟨pre ++ getSubst original pre post fixed ++ post, by simp [applyFix, hfo]⟩

theorem claim_C3_amended_witness :
    applyFix ("x".toList) ("y".toList) ("y".toList) = none :=
  (claim_C3_amended ("x".toList) ("y".toList) ("x".toList) ("y".toList)
    (by rfl)).1 (by rfl)

theorem length_filterMap_countP {α β : Type} (f : α → Option β) (l : List α) :
    (l.filterMap f).length = l.countP (fun a => (f a).isSome) := by
  induction l with
  | nil => rfl
  | cons a l ih =>
    cases hf : f a with
    | none => simp [List.filterMap_cons, hf, List.countP_cons, ih]
    | some b => simp [List.filterMap_cons, hf, List.countP_cons, ih]

theorem genFixes_eq_filterMap (fs : List Char → List Char) (oracle : FixOracle)
    (msg : List Char) (locs : List LintLocation) :
    genFixes fs oracle msg locs = locs.filterMap (acceptedFix fs oracle msg) := by
  induction locs with
  | nil => rfl
  | cons loc rest ih =>
    simp only [genFixes, acceptedFix, List.filterMap_cons]
    cases ho : oracle loc.fileFull loc.line msg
        (contextOf (splitOnChar nlC (fs loc.fileFull)) loc.line) with
    | none => exact ih
    | some d =>
      dsimp only
      by_cases hv : validFix (splitOnChar nlC (fs loc.fileFull)).length d
      · rw [if_pos hv, if_pos hv, ih]
      · rw [if_neg hv, if_neg hv, ih]

/-- C4. Fix Generator validation and bundle shape: a reply is accepted
only when its line span passes the sanity gate (so an end line before
the start line is always rejected); the produced fixes are exactly the
per-location accepted fixes in location order; the bundle length
counts the accepted locations; every accepted fix carries the current
file text over its accepted inclusive span and the oracle's
replacement code; and for a non-null rule the bundle exists with
`count` equal to the number of accepted fixes. -/
theorem claim_C4 (rule : ParsedRule) (fs : List Char → List Char)
    (explainReply : Option ExplainData) (disableReply : Option DisableData)
    (oracle : FixOracle) :
    (∀ numLines d, d.endLine < d.startLine → validFix numLines d = false)
  ∧ (∀ msg locs, genFixes fs oracle msg locs = locs.filterMap (acceptedFix fs oracle msg))
  ∧ (∀ msg locs, (genFixes fs oracle msg locs).length
      = locs.countP (fun loc => (acceptedFix fs oracle msg loc).isSome))
  ∧ (∀ msg locs, ∀ fx ∈ genFixes fs oracle msg locs, ∃ loc ∈ locs, ∃ d,
        oracle loc.fileFull loc.line msg
          (contextOf (splitOnChar nlC (fs loc.fileFull)) loc.line) = some d
      ∧ validFix (splitOnChar nlC (fs loc.fileFull)).length d = true
      ∧ fx.original = spanText (fs loc.fileFull) d.startLine.toNat d.endLine.toNat
      ∧ fx.fixed = d.fixedCode)
  ∧ (∀ rid, rule.ruleId = some rid → ∃ bundle,
        generateFixForSingleRule rule fs explainReply disableReply oracle = some bundle
      ∧ bundle.count = bundle.fixes.length
      ∧ bundle.fixes
          = genFixes fs oracle (rule.sampleMessages.getD 0 []) rule.locations) := by
  refine ⟨?_, genFixes_eq_filterMap fs oracle, ?_, ?_, ?_⟩
  · intro numLines d hlt
    cases hb : validFix numLines d
    · rfl
    · exfalso
      simp only [validFix, Bool.and_eq_true, decide_eq_true_eq] at hb
      have := hb.1.1.2
      omega
  · intro msg locs
    rw [genFixes_eq_filterMap, length_filterMap_countP]
  · intro msg locs fx hfx
    induction locs with
    | nil => simp [genFixes] at hfx
    | cons loc rest ih =>
      simp only [genFixes] at hfx
      cases ho : oracle loc.fileFull loc.line msg
          (contextOf (splitOnChar nlC (fs loc.fileFull)) loc.line) with
      | none =>
        rw [ho] at hfx
        dsimp only at hfx
        obtain ⟨loc2, hloc2, hrest⟩ := ih hfx
        exact ⟨loc2, List.mem_cons_of_mem _ hloc2, hrest⟩
      | some d =>
        rw [ho] at hfx
        dsimp only at hfx
        by_cases hv : validFix (splitOnChar nlC (fs loc.fileFull)).length d
        · rw [if_pos hv] at hfx
          rcases List.mem_cons.mp hfx with heq | hmem
          · refine ⟨loc, List.mem_cons_self _ _, d, ho, hv, ?_, by rw [heq]; rfl⟩
            rw [heq]
            have hsv : (0 : Int) < d.startLine ∧ d.startLine ≤ d.endLine := by
              simp only [validFix, Bool.and_eq_true, decide_eq_true_eq] at hv
              exact ⟨hv.1.1.1, hv.1.1.2⟩
            obtain ⟨hs1, hs2⟩ := hsv
            have harith : d.endLine.toNat - (d.startLine.toNat - 1)
                = d.endLine.toNat - d.startLine.toNat + 1 := by omega
            simp only [mkLocationFix, spanText]
            rw [harith]
          · obtain ⟨loc2, hloc2, hrest⟩ := ih hmem
            exact ⟨loc2, List.mem_cons_of_mem _ hloc2, hrest⟩
        · rw [if_neg hv] at hfx
          obtain ⟨loc2, hloc2, hrest⟩ := ih hfx
          exact ⟨loc2, List.mem_cons_of_mem _ hloc2, hrest⟩
  · intro rid hrid
    simp only [generateFixForSingleRule, hrid]
    exact ⟨_, rfl, rfl, rfl⟩

/-- Witness for C4 at Scenario E's concrete input: an oracle reply
with start line 10 and end line 5 fails validation. -/
theorem claim_C4_witness :
    validFix 20 { startLine := 10, endLine := 5, fixedCode := "x".toList,
                  explanation := [] } = false :=
  (claim_C4
    { ruleId := none, severity := [], count := 0, autoFixable := false,
      fixableCount := 0, locations := [], sampleMessages := [], sampleSource := [] }
    (fun _ => []) none none (fun _ _ _ _ => none)).1 20 _ (by decide)

theorem sessRun_some (fs : List (List Char)) :
    ∀ prev, (∀ f ∈ fs, f ≠ []) → sessRun (some prev) fs = specResets prev fs := by
  induction fs with
  | nil => intro prev _; rfl
  | cons f fs ih =>
    intro prev hne
    have hf : f ≠ [] := hne f (List.mem_cons_self _ _)
    by_cases heq : f = prev
    · subst heq
      have hstep : sessStep (some f) f = (some f, 0) := by
        simp [sessStep]
      simp only [sessRun, specResets, hstep, if_pos rfl]
      exact congrArg (0 :: ·) (ih f (fun g hg => hne g (List.mem_cons_of_mem _ hg)))
    · have hstep : sessStep (some prev) f = (some f, 1) := by
        simp only [sessStep, ne_eq]
        rw [if_pos ⟨hf, by simpa using fun h => heq h.symm⟩]
        simp
      simp only [sessRun, specResets, hstep, if_neg heq]
      exact congrArg (1 :: ·) (ih f (fun g hg => hne g (List.mem_cons_of_mem _ hg)))

/-- C8. Orchestration Loop session resets: starting from a null
tracked file, the run performs no reset at the first selection, no
reset when the newly selected work item is in the same file as the
immediately preceding one, and exactly one reset between two
successive selections in different files. -/
theorem claim_C8 (files : List (List Char)) (hne : ∀ f ∈ files, f ≠ []) :
    sessRun none files = specTrace files := by
  cases files with
  | nil => rfl
  | cons f fs =>
    have hf : f ≠ [] := hne f (List.mem_cons_self _ _)
    have hstep : sessStep none f = (some f, 0) := by
      simp [sessStep, hf]
    simp only [sessRun, specTrace, hstep]
    exact congrArg (0 :: ·)
      (sessRun_some fs f (fun g hg => hne g (List.mem_cons_of_mem _ hg)))

/-- Witness for C8: a concrete run over files a.ts, b.ts, b.ts, a.ts
resets exactly at the two file switches and nowhere else. -/
theorem claim_C8_witness :
    sessRun none ["a.ts".toList, "b.ts".toList, "b.ts".toList, "a.ts".toList]
      = [0, 1, 0, 1] := by
  rw [claim_C8 _ (by decide)]
  decide

theorem parseVal_succ (f : Nat) (s : List Char) :
    parseVal (f + 1) s = parseValStep (parseMembers f) (parseElems f) s := by
  simp only [parseVal]

theorem parseMembers_succ (f : Nat) (s : List Char) :
    parseMembers (f + 1) s = parseMembersStep (parseVal f) (parseMembers f) s := by
  simp only [parseMembers]

theorem parseElems_succ (f : Nat) (s : List Char) :
    parseElems (f + 1) s = parseElemsStep (parseVal f) (parseElems f) s := by
  simp only [parseElems]

/- Arithmetic facts about digit and hexadecimal characters. -/

theorem digitChar_toNat : ∀ d, d < 10 → (digitChar d).toNat = 48 + d := by decide

theorem isDigitC_digitChar : ∀ d, d < 10 → isDigitC (digitChar d) = true := by decide

theorem hexVal_hexDig : ∀ n, n < 16 → hexVal (hexDig n) = some n := by decide

theorem natCharsAux_digits : ∀ fuel n, n < fuel →
    natCharsAux fuel n ≠ [] ∧ ∀ c ∈ natCharsAux fuel n, isDigitC c = true := by
  intro fuel
  induction fuel with
  | zero => intro n h; omega
  | succ fuel ih =>
    intro n h
    by_cases h10 : n < 10
    · refine ⟨by simp [natCharsAux, h10], ?_⟩
      intro c hc
      simp only [natCharsAux, if_pos h10, List.mem_singleton] at hc
      subst hc
      exact isDigitC_digitChar n h10
    · have hn : n / 10 < fuel := by
        have := Nat.div_lt_self (show 0 < n by omega) (show 1 < 10 by omega)
        omega
      obtain ⟨hne, hall⟩ := ih (n / 10) hn
      refine ⟨by simp [natCharsAux, h10], ?_⟩
      intro c hc
      simp only [natCharsAux, if_neg h10, List.mem_append, List.mem_singleton] at hc
      rcases hc with hc | hc
      · exact hall c hc
      · subst hc
        exact isDigitC_digitChar (n % 10) (Nat.mod_lt _ (by omega))

theorem digitsToNat_append_digit (ds : List Char) (c : Char) :
    digitsToNat (ds ++ [c]) = 10 * digitsToNat ds + (c.toNat - 48) := by
  simp [digitsToNat, List.foldl_append]

theorem digitsToNat_natCharsAux : ∀ fuel n, n < fuel →
    digitsToNat (natCharsAux fuel n) = n := by
  intro fuel
  induction fuel with
  | zero => intro n h; omega
  | succ fuel ih =>
    intro n h
    by_cases h10 : n < 10
    · simp only [natCharsAux, if_pos h10]
      simp only [digitsToNat, List.foldl_cons, List.foldl_nil]
      rw [digitChar_toNat n h10]
      omega
    · have hn : n / 10 < fuel := by
        have := Nat.div_lt_self (show 0 < n by omega) (show 1 < 10 by omega)
        omega
      simp only [natCharsAux, if_neg h10, digitsToNat_append_digit, ih _ hn]
      rw [digitChar_toNat (n % 10) (Nat.mod_lt _ (by omega))]
      omega

theorem natChars_digits (n : Nat) :
    natChars n ≠ [] ∧ ∀ c ∈ natChars n, isDigitC c = true :=
  natCharsAux_digits (n + 1) n (Nat.lt_succ_self n)

theorem digitsToNat_natChars (n : Nat) : digitsToNat (natChars n) = n :=
  digitsToNat_natCharsAux (n + 1) n (Nat.lt_succ_self n)

theorem takeDigits_append (ds : List Char) (rest : List Char)
    (hds : ∀ c ∈ ds, isDigitC c = true) (hrest : noDigitHead rest = true) :
    takeDigits (ds ++ rest) = (ds, rest) := by
  induction ds with
  | nil =>
    cases rest with
    | nil => rfl
    | cons c r =>
      simp only [noDigitHead, Bool.not_eq_true'] at hrest
      simp [takeDigits, hrest]
  | cons d ds ih =>
    have hd := hds d (List.mem_cons_self _ _)
    have htail := ih (fun c hc => hds c (List.mem_cons_of_mem _ hc))
    show takeDigits (d :: (ds ++ rest)) = (d :: ds, rest)
    rw [takeDigits.eq_def]
    dsimp only
    rw [if_pos hd, htail]

/-- Heads of rendered numbers are digits, hence distinct from every
structural character the value parser tests first. -/
theorem digitHead_ne (c : Char) (h : isDigitC c = true) :
    c ≠ quoteC ∧ c ≠ braceO ∧ c ≠ brackO ∧ c ≠ 'n' ∧ c ≠ 't' ∧ c ≠ 'f'
      ∧ c ≠ minusC := by
  simp only [isDigitC, Bool.and_eq_true, decide_eq_true_eq] at h
  obtain ⟨h1, h2⟩ := h
  refine ⟨?_, ?_, ?_, ?_, ?_, ?_, ?_⟩ <;>
    (intro he; rw [he] at h1 h2; revert h1 h2; decide)

theorem digitHead_struct (c : Char) (h : isDigitC c = true) :
    isJsonWs c = false ∧ c ≠ brackC ∧ c ≠ braceC ∧ c ≠ commaC ∧ c ≠ colonC := by
  have h' := h
  simp only [isDigitC, Bool.and_eq_true, decide_eq_true_eq] at h'
  obtain ⟨h1, h2⟩ := h'
  refine ⟨?_, ?_, ?_, ?_, ?_⟩
  · simp only [isJsonWs, Bool.or_eq_false_iff, decide_eq_false_iff_not]
    refine ⟨⟨⟨?_, ?_⟩, ?_⟩, ?_⟩ <;> (intro he; rw [he] at h1 h2; revert h1 h2; decide)
  all_goals (intro he; rw [he] at h1 h2; revert h1 h2; decide)

theorem isPre_cons_false {a b : Char} (l m : List Char) (h : a ≠ b) :
    isPre (a :: l) (b :: m) = false := by
  have hb : (a == b) = false := beq_eq_false_iff_ne.mpr h
  simp [isPre, hb]

theorem parseNum_intChars (n : Int) (rest : List Char)
    (hrest : noDigitHead rest = true) :
    parseNum (intChars n ++ rest) = some (n, rest) := by
  by_cases hneg : n < 0
  · have hm : intChars n ++ rest = minusC :: (natChars (-n).toNat ++ rest) := by
      simp [intChars, if_pos hneg]
    rw [hm, parseNum.eq_def]
    dsimp only
    rw [if_pos rfl]
    obtain ⟨hne, hdig⟩ := natChars_digits (-n).toNat
    obtain ⟨d, ds, hds⟩ : ∃ d ds, natChars (-n).toNat = d :: ds := by
      cases hc : natChars (-n).toNat with
      | nil => exact absurd hc hne
      | cons d ds => exact ⟨d, ds, rfl⟩
    rw [hds] at hdig ⊢
    rw [takeDigits_append (d :: ds) rest hdig hrest]
    dsimp only
    rw [← hds, digitsToNat_natChars]
    have hc : (((-n).toNat : Int)) = -n := Int.toNat_of_nonneg (by omega)
    rw [hc, neg_neg]
  · have hm : intChars n ++ rest = natChars n.toNat ++ rest := by
      simp [intChars, hneg]
    rw [hm]
    obtain ⟨hne, hdig⟩ := natChars_digits n.toNat
    obtain ⟨d, ds, hds⟩ : ∃ d ds, natChars n.toNat = d :: ds := by
      cases hc : natChars n.toNat with
      | nil => exact absurd hc hne
      | cons d ds => exact ⟨d, ds, rfl⟩
    have hd : isDigitC d = true := hdig d (by rw [hds]; exact List.mem_cons_self d ds)
    have hdm : d ≠ minusC := (digitHead_ne d hd).2.2.2.2.2.2
    rw [hds] at hdig ⊢
    rw [List.cons_append, parseNum.eq_def]
    dsimp only
    rw [if_neg hdm, ← List.cons_append, takeDigits_append (d :: ds) rest hdig hrest]
    dsimp only
    rw [← hds, digitsToNat_natChars]
    have hc : ((n.toNat : Int)) = n := Int.toNat_of_nonneg (by omega)
    rw [hc]

theorem charOfNat_toNat {c : Char} (h : c.toNat < 32) : Char.ofNat c.toNat = c := by
  have h1 : ∀ n, n < 32 → (Char.ofNat n).toNat = n := by decide
  have h2 : (Char.ofNat c.toNat).toNat = c.toNat := h1 _ h
  exact Char.eq_of_val_eq (UInt32.eq_of_toBitVec_eq (BitVec.eq_of_toNat_eq h2))

theorem hex4_enc (a b : Nat) (ha : a < 16) (hb : b < 16) :
    hex4 '0' '0' (hexDig a) (hexDig b) = some (a * 16 + b) := by
  have h0 : hexVal '0' = some 0 := by decide
  rw [hex4.eq_def, h0, hexVal_hexDig a ha, hexVal_hexDig b hb]
  dsimp only
  congr 1
  omega

theorem escChar_ne_nil (c : Char) : escChar c ≠ [] := by
  simp only [escChar]
  repeat' split
  all_goals simp

theorem escBody_length_ge (s : List Char) : s.length ≤ (escBody s).length := by
  induction s with
  | nil => simp [escBody]
  | cons c cs ih =>
    have h1 : 1 ≤ (escChar c).length :=
      List.length_pos.mpr (escChar_ne_nil c)
    simp only [escBody, List.length_append, List.length_cons]
    omega

theorem parseStrBody_escBody (s : List Char) :
    ∀ fuel rest, s.length < fuel →
      parseStrBody fuel (escBody s ++ quoteC :: rest) = some (s, rest) := by
  induction s with
  | nil =>
    intro fuel rest h
    obtain ⟨g, rfl⟩ : ∃ g, fuel = g + 1 := ⟨fuel - 1, by omega⟩
    rfl
  | cons c cs ih =>
    intro fuel rest h
    obtain ⟨g, rfl⟩ : ∃ g, fuel = g + 1 := ⟨fuel - 1, by omega⟩
    have hcs : cs.length < g := by
      simp only [List.length_cons] at h
      omega
    by_cases h1 : c = quoteC
    · subst h1
      show (parseStrBody g (escBody cs ++ quoteC :: rest)).map
          (fun p => (quoteC :: p.1, p.2)) = some (quoteC :: cs, rest)
      rw [ih g rest hcs]; rfl
    by_cases h2 : c = backslashC
    · subst h2
      show (parseStrBody g (escBody cs ++ quoteC :: rest)).map
          (fun p => (backslashC :: p.1, p.2)) = some (backslashC :: cs, rest)
      rw [ih g rest hcs]; rfl
    by_cases h3 : c = nlC
    · subst h3
      show (parseStrBody g (escBody cs ++ quoteC :: rest)).map
          (fun p => (nlC :: p.1, p.2)) = some (nlC :: cs, rest)
      rw [ih g rest hcs]; rfl
    by_cases h4 : c = crC
    · subst h4
      show (parseStrBody g (escBody cs ++ quoteC :: rest)).map
          (fun p => (crC :: p.1, p.2)) = some (crC :: cs, rest)
      rw [ih g rest hcs]; rfl
    by_cases h5 : c = tabC
    · subst h5
      show (parseStrBody g (escBody cs ++ quoteC :: rest)).map
          (fun p => (tabC :: p.1, p.2)) = some (tabC :: cs, rest)
      rw [ih g rest hcs]; rfl
    by_cases h6 : c = Char.ofNat 8
    · subst h6
      show (parseStrBody g (escBody cs ++ quoteC :: rest)).map
          (fun p => (Char.ofNat 8 :: p.1, p.2)) = some (Char.ofNat 8 :: cs, rest)
      rw [ih g rest hcs]; rfl
    by_cases h7 : c = Char.ofNat 12
    · subst h7
      show (parseStrBody g (escBody cs ++ quoteC :: rest)).map
          (fun p => (Char.ofNat 12 :: p.1, p.2)) = some (Char.ofNat 12 :: cs, rest)
      rw [ih g rest hcs]; rfl
    by_cases h8 : c.toNat < 32
    · have hesc : escChar c = [backslashC, 'u', '0', '0',
          hexDig (c.toNat / 16), hexDig (c.toNat % 16)] := by
        simp only [escChar, if_neg h1, if_neg h2, if_neg h3, if_neg h4, if_neg h5,
          if_neg h6, if_neg h7, if_pos h8]
      have hlist : escBody (c :: cs) ++ quoteC :: rest
          = backslashC :: 'u' :: '0' :: '0' :: hexDig (c.toNat / 16)
              :: hexDig (c.toNat % 16) :: (escBody cs ++ quoteC :: rest) := by
        show (escChar c ++ escBody cs) ++ quoteC :: rest = _
        rw [hesc]
        rfl
      rw [hlist]
      show (hex4 '0' '0' (hexDig (c.toNat / 16)) (hexDig (c.toNat % 16))).bind
          (fun v => (parseStrBody g (escBody cs ++ quoteC :: rest)).map
            (fun p => (Char.ofNat v :: p.1, p.2))) = some (c :: cs, rest)
      rw [hex4_enc _ _ (by omega) (by omega), Option.some_bind, ih g rest hcs]
      show some (Char.ofNat (c.toNat / 16 * 16 + c.toNat % 16) :: cs, rest)
          = some (c :: cs, rest)
      rw [show c.toNat / 16 * 16 + c.toNat % 16 = c.toNat from by omega]
      rw [charOfNat_toNat h8]
    · have hesc : escChar c = [c] := by
        simp only [escChar, if_neg h1, if_neg h2, if_neg h3, if_neg h4, if_neg h5,
          if_neg h6, if_neg h7, if_neg h8]
      have hlist : escBody (c :: cs) ++ quoteC :: rest
          = c :: (escBody cs ++ quoteC :: rest) := by
        show (escChar c ++ escBody cs) ++ quoteC :: rest = _
        rw [hesc]
        rfl
      rw [hlist]
      show parseStrStep (parseStrBody g) (c :: (escBody cs ++ quoteC :: rest))
          = some (c :: cs, rest)
      rw [parseStrStep.eq_def]
      dsimp only
      rw [if_neg h1, if_neg h2, ih g rest hcs]
      rfl

theorem parseVal_null (f : Nat) (rest : List Char) :
    parseVal (f + 1) (stringify Json.null ++ rest) = some (Json.null, rest) := by
  rw [parseVal_succ]
  simp only [stringify]
  rfl

theorem parseVal_true (f : Nat) (rest : List Char) :
    parseVal (f + 1) (stringify (Json.bool true) ++ rest)
      = some (Json.bool true, rest) := by
  rw [parseVal_succ]
  simp only [stringify]
  rfl

theorem parseVal_false (f : Nat) (rest : List Char) :
    parseVal (f + 1) (stringify (Json.bool false) ++ rest)
      = some (Json.bool false, rest) := by
  rw [parseVal_succ]
  simp only [stringify]
  rfl

theorem parseVal_str (f : Nat) (s rest : List Char) :
    parseVal (f + 1) (stringify (Json.str s) ++ rest) = some (Json.str s, rest) := by
  have hl : stringify (Json.str s) ++ rest = quoteC :: (escBody s ++ quoteC :: rest) := by
    simp only [stringify, strQuote]
    simp
  rw [hl, parseVal_succ]
  show (parseStrBody ((escBody s ++ quoteC :: rest).length + 1)
      (escBody s ++ quoteC :: rest)).map
      (fun p => (Json.str p.1, p.2)) = some (Json.str s, rest)
  rw [parseStrBody_escBody s _ rest
    (by
      have := escBody_length_ge s
      simp only [List.length_append, List.length_cons]
      omega)]
  rfl

theorem parseVal_notStruct (f : Nat) (d : Char) (tail : List Char)
    (hq : d ≠ quoteC) (hbo : d ≠ braceO) (hko : d ≠ brackO)
    (hn : d ≠ 'n') (ht : d ≠ 't') (hf : d ≠ 'f') :
    parseVal (f + 1) (d :: tail)
      = (parseNum (d :: tail)).map (fun p => (Json.num p.1, p.2)) := by
  have hnul : isPre ("null".toList) (d :: tail) = false := by
    show isPre ('n' :: "ull".toList) (d :: tail) = false
    exact isPre_cons_false _ _ (Ne.symm hn)
  have htru : isPre ("true".toList) (d :: tail) = false := by
    show isPre ('t' :: "rue".toList) (d :: tail) = false
    exact isPre_cons_false _ _ (Ne.symm ht)
  have hfal : isPre ("false".toList) (d :: tail) = false := by
    show isPre ('f' :: "alse".toList) (d :: tail) = false
    exact isPre_cons_false _ _ (Ne.symm hf)
  rw [parseVal_succ]
  rw [parseValStep.eq_def]
  dsimp only
  rw [if_neg hq, if_neg hbo, if_neg hko,
    if_neg (show ¬(isPre ("null".toList) (d :: tail) = true) by
      rw [hnul]; exact Bool.false_ne_true),
    if_neg (show ¬(isPre ("true".toList) (d :: tail) = true) by
      rw [htru]; exact Bool.false_ne_true),
    if_neg (show ¬(isPre ("false".toList) (d :: tail) = true) by
      rw [hfal]; exact Bool.false_ne_true)]

theorem parseVal_num (f : Nat) (n : Int) (rest : List Char)
    (hrest : noDigitHead rest = true) :
    parseVal (f + 1) (stringify (Json.num n) ++ rest) = some (Json.num n, rest) := by
  by_cases hneg : n < 0
  · have hl2 : intChars n ++ rest = minusC :: (natChars (-n).toNat ++ rest) := by
      simp [intChars, if_pos hneg]
    have hl : stringify (Json.num n) ++ rest
        = minusC :: (natChars (-n).toNat ++ rest) := by
      simp only [stringify]
      exact hl2
    rw [hl]
    show (parseNum (minusC :: (natChars (-n).toNat ++ rest))).map
        (fun p => (Json.num p.1, p.2)) = some (Json.num n, rest)
    rw [← hl2, parseNum_intChars n rest hrest]
    rfl
  · have hl2 : intChars n ++ rest = natChars n.toNat ++ rest := by
      simp [intChars, hneg]
    obtain ⟨hne, hdig⟩ := natChars_digits n.toNat
    obtain ⟨d, ds, hds⟩ : ∃ d ds, natChars n.toNat = d :: ds := by
      cases hc : natChars n.toNat with
      | nil => exact absurd hc hne
      | cons d ds => exact ⟨d, ds, rfl⟩
    have hd : isDigitC d = true := hdig d (by rw [hds]; exact List.mem_cons_self d ds)
    obtain ⟨hq, hbo, hko, hn', ht, hf, _⟩ := digitHead_ne d hd
    have hl3 : stringify (Json.num n) ++ rest = d :: (ds ++ rest) := by
      simp only [stringify]
      rw [hl2, hds]
      rfl
    have hback : d :: (ds ++ rest) = intChars n ++ rest := by
      rw [hl2, hds]
      rfl
    rw [hl3, parseVal_notStruct f d _ hq hbo hko hn' ht hf, hback,
      parseNum_intChars n rest hrest]
    rfl


theorem skipWs_cons_notWs {c : Char} {t : List Char} (h : isJsonWs c = false) :
    skipWs (c :: t) = c :: t := by
  simp [skipWs, List.dropWhile_cons, h]

/-- The first character of a printed value is never whitespace nor a
closing bracket, closing brace or comma. -/
theorem stringify_head (j : Json) :
    ∃ c cs, stringify j = c :: cs ∧ isJsonWs c = false
      ∧ c ≠ brackC ∧ c ≠ braceC ∧ c ≠ commaC := by
  cases j with
  | null =>
    refine ⟨'n', "ull".toList, ?_, by decide, by decide, by decide, by decide⟩
    simp only [stringify]
    rfl
  | bool b =>
    cases b with
    | true =>
      refine ⟨'t', "rue".toList, ?_, by decide, by decide, by decide, by decide⟩
      simp only [stringify]
      rfl
    | false =>
      refine ⟨'f', "alse".toList, ?_, by decide, by decide, by decide, by decide⟩
      simp only [stringify]
      rfl
  | num n =>
    by_cases hneg : n < 0
    · refine ⟨minusC, natChars (-n).toNat, ?_, by decide, by decide, by decide, by decide⟩
      simp only [stringify, intChars, if_pos hneg]
    · obtain ⟨hne, hdig⟩ := natChars_digits n.toNat
      obtain ⟨d, ds, hds⟩ : ∃ d ds, natChars n.toNat = d :: ds := by
        cases hc : natChars n.toNat with
        | nil => exact absurd hc hne
        | cons d ds => exact ⟨d, ds, rfl⟩
      have hd : isDigitC d = true :=
        hdig d (by rw [hds]; exact List.mem_cons_self d ds)
      obtain ⟨hws, hbk, hbc, hcm, _⟩ := digitHead_struct d hd
      refine ⟨d, ds, ?_, hws, hbk, hbc, hcm⟩
      simp only [stringify, intChars, if_neg hneg]
      exact hds
  | str s =>
    refine ⟨quoteC, escBody s ++ [quoteC], ?_, by decide, by decide, by decide, by decide⟩
    simp only [stringify, strQuote]
    simp
  | arr a =>
    cases a with
    | nil =>
      exact ⟨brackO, [brackC], by simp only [stringify], by decide, by decide,
        by decide, by decide⟩
    | cons x xs =>
      exact ⟨brackO, stringify x ++ (arrTail xs ++ [brackC]),
        by simp only [stringify]; simp [List.append_assoc],
        by decide, by decide, by decide, by decide⟩
  | obj o =>
    cases o with
    | nil =>
      exact ⟨braceO, [braceC], by simp only [stringify], by decide, by decide,
        by decide, by decide⟩
    | cons k v fs =>
      exact ⟨braceO, strQuote k ++ (colonC :: stringify v ++ (objTail fs ++ [braceC])),
        by simp only [stringify]; simp [List.append_assoc],
        by decide, by decide, by decide, by decide⟩

theorem noDigitHead_objTail (t : JObj) (rest : List Char) :
    noDigitHead (objTail t ++ braceC :: rest) = true := by
  cases t with
  | nil =>
    simp only [objTail, List.nil_append, noDigitHead]
    decide
  | cons k v t2 =>
    simp only [objTail, List.cons_append, noDigitHead]
    decide

theorem noDigitHead_arrTail (t : JArr) (rest : List Char) :
    noDigitHead (arrTail t ++ brackC :: rest) = true := by
  cases t with
  | nil =>
    simp only [arrTail, List.nil_append, noDigitHead]
    decide
  | cons x t2 =>
    simp only [arrTail, List.cons_append, noDigitHead]
    decide

theorem jfuel_pos (j : Json) : 1 ≤ jfuel j := by
  cases j <;> simp only [jfuel] <;> omega

theorem afuel_pos (a : JArr) : 1 ≤ afuel a := by
  cases a <;> simp only [afuel] <;> omega

theorem ofuel_pos (o : JObj) : 1 ≤ ofuel o := by
  cases o <;> simp only [ofuel] <;> omega

theorem parseValStep_obj_nil (pm : List Char → Option (JObj × List Char))
    (pe : List Char → Option (JArr × List Char)) (tail : List Char) :
    parseValStep pm pe (braceO :: braceC :: tail) = some (Json.obj JObj.nil, tail) := rfl

theorem parseValStep_obj_cons (pm : List Char → Option (JObj × List Char))
    (pe : List Char → Option (JArr × List Char)) (tail : List Char) :
    parseValStep pm pe (braceO :: quoteC :: tail)
      = (pm (quoteC :: tail)).map (fun p => (Json.obj p.1, p.2)) := rfl

theorem parseValStep_arr_nil (pm : List Char → Option (JObj × List Char))
    (pe : List Char → Option (JArr × List Char)) (tail : List Char) :
    parseValStep pm pe (brackO :: brackC :: tail) = some (Json.arr JArr.nil, tail) := rfl

theorem parseValStep_arr (pm : List Char → Option (JObj × List Char))
    (pe : List Char → Option (JArr × List Char)) (d : Char) (tail : List Char)
    (hws : isJsonWs d = false) (hne : d ≠ brackC) :
    parseValStep pm pe (brackO :: d :: tail)
      = (pe (d :: tail)).map (fun p => (Json.arr p.1, p.2)) := by
  rw [parseValStep.eq_def]
  dsimp only
  rw [if_neg (by decide), if_neg (by decide), if_pos rfl, skipWs_cons_notWs hws]
  dsimp only
  rw [if_neg hne]

/-- Printing then parsing is the identity, jointly for values, object
member lists and array element lists, at any sufficient fuel. -/
theorem parsePrintAll : ∀ fuel : Nat,
    (∀ (j : Json) (rest : List Char), jfuel j ≤ fuel → noDigitHead rest = true →
      parseVal fuel (stringify j ++ rest) = some (j, rest))
  ∧ (∀ (k : List Char) (v : Json) (t : JObj) (rest : List Char),
      ofuel (JObj.cons k v t) ≤ fuel →
      parseMembers fuel
          (strQuote k ++ colonC :: (stringify v ++ (objTail t ++ braceC :: rest)))
        = some (JObj.cons k v t, rest))
  ∧ (∀ (v : Json) (t : JArr) (rest : List Char), afuel (JArr.cons v t) ≤ fuel →
      parseElems fuel (stringify v ++ (arrTail t ++ brackC :: rest))
        = some (JArr.cons v t, rest)) := by
  intro fuel
  induction fuel with
  | zero =>
    refine ⟨?_, ?_, ?_⟩
    · intro j rest hj _
      exact absurd hj (by have := jfuel_pos j; omega)
    · intro k v t rest ho
      exact absurd ho (by have := ofuel_pos (JObj.cons k v t); omega)
    · intro v t rest ha
      exact absurd ha (by have := afuel_pos (JArr.cons v t); omega)
  | succ g ih =>
    obtain ⟨ihv, ihm, ihe⟩ := ih
    refine ⟨?_, ?_, ?_⟩
    · intro j rest hj hr
      cases j with
      | null => exact parseVal_null g rest
      | bool b =>
        cases b with
        | true => exact parseVal_true g rest
        | false => exact parseVal_false g rest
      | num n => exact parseVal_num g n rest hr
      | str s => exact parseVal_str g s rest
      | arr a =>
        cases a with
        | nil =>
          rw [parseVal_succ]
          have hl : stringify (Json.arr JArr.nil) ++ rest = brackO :: brackC :: rest := by
            simp only [stringify]
            rfl
          rw [hl, parseValStep_arr_nil]
        | cons x xs =>
          obtain ⟨cx, csx, hcx, hxws, hxbk, _, _⟩ := stringify_head x
          have hl : stringify (Json.arr (JArr.cons x xs)) ++ rest
              = brackO :: cx :: (csx ++ (arrTail xs ++ brackC :: rest)) := by
            simp only [stringify]
            rw [hcx]
            simp [List.append_assoc]
          have hfold : cx :: (csx ++ (arrTail xs ++ brackC :: rest))
              = stringify x ++ (arrTail xs ++ brackC :: rest) := by
            rw [hcx]
            rfl
          rw [parseVal_succ, hl, parseValStep_arr _ _ cx _ hxws hxbk, hfold,
            ihe x xs rest (by simp only [jfuel] at hj; omega)]
          rfl
      | obj o =>
        cases o with
        | nil =>
          rw [parseVal_succ]
          have hl : stringify (Json.obj JObj.nil) ++ rest = braceO :: braceC :: rest := by
            simp only [stringify]
            rfl
          rw [hl, parseValStep_obj_nil]
        | cons k v t =>
          have hl : stringify (Json.obj (JObj.cons k v t)) ++ rest
              = braceO :: quoteC :: (escBody k ++ quoteC ::
                  (colonC :: (stringify v ++ (objTail t ++ braceC :: rest)))) := by
            simp only [stringify, strQuote]
            simp [List.append_assoc]
          have hfold : quoteC :: (escBody k ++ quoteC ::
                  (colonC :: (stringify v ++ (objTail t ++ braceC :: rest))))
              = strQuote k ++ colonC :: (stringify v ++ (objTail t ++ braceC :: rest)) := by
            simp [strQuote, List.append_assoc]
          rw [parseVal_succ, hl, parseValStep_obj_cons, hfold,
            ihm k v t rest (by simp only [jfuel] at hj; omega)]
          rfl
    · intro k v t rest ho
      have hjv : jfuel v ≤ g := by
        simp only [ofuel] at ho
        omega
      rw [parseMembers_succ]
      have hq : strQuote k ++ colonC :: (stringify v ++ (objTail t ++ braceC :: rest))
          = quoteC :: (escBody k ++ quoteC ::
              (colonC :: (stringify v ++ (objTail t ++ braceC :: rest)))) := by
        simp [strQuote, List.append_assoc]
      rw [hq, parseMembersStep.eq_def]
      dsimp only
      rw [if_pos rfl,
        parseStrBody_escBody k _ _ (by
          have := escBody_length_ge k
          simp only [List.length_append, List.length_cons]
          omega)]
      dsimp only
      rw [skipWs_cons_notWs (by decide)]
      dsimp only
      rw [if_pos rfl]
      obtain ⟨cv, csv, hcv, hvws, _, _, _⟩ := stringify_head v
      have hv1 : stringify v ++ (objTail t ++ braceC :: rest)
          = cv :: (csv ++ (objTail t ++ braceC :: rest)) := by
        rw [hcv]
        rfl
      rw [hv1, skipWs_cons_notWs hvws, ← hv1,
        ihv v (objTail t ++ braceC :: rest) hjv (noDigitHead_objTail t rest)]
      dsimp only
      cases t with
      | nil =>
        simp only [objTail, List.nil_append]
        rw [skipWs_cons_notWs (by decide)]
        dsimp only
        rw [if_neg (by decide), if_pos rfl]
      | cons k2 v2 t2 =>
        have hx : objTail (JObj.cons k2 v2 t2) ++ braceC :: rest
            = commaC :: (strQuote k2 ++ colonC ::
                (stringify v2 ++ (objTail t2 ++ braceC :: rest))) := by
          simp [objTail, List.append_assoc]
        rw [hx, skipWs_cons_notWs (by decide)]
        dsimp only
        rw [if_pos rfl]
        have hq2 : strQuote k2 ++ colonC ::
              (stringify v2 ++ (objTail t2 ++ braceC :: rest))
            = quoteC :: (escBody k2 ++ quoteC ::
                (colonC :: (stringify v2 ++ (objTail t2 ++ braceC :: rest)))) := by
          simp [strQuote, List.append_assoc]
        rw [hq2, skipWs_cons_notWs (by decide), ← hq2,
          ihm k2 v2 t2 rest (by simp only [ofuel] at ho ⊢; omega)]
        rfl
    · intro v t rest ha
      have hjv : jfuel v ≤ g := by
        simp only [afuel] at ha
        omega
      rw [parseElems_succ]
      simp only [parseElemsStep]
      rw [ihv v (arrTail t ++ brackC :: rest) hjv (noDigitHead_arrTail t rest)]
      dsimp only
      cases t with
      | nil =>
        simp only [arrTail, List.nil_append]
        rw [skipWs_cons_notWs (by decide)]
        dsimp only
        rw [if_neg (by decide), if_pos rfl]
      | cons x2 t2 =>
        have hx : arrTail (JArr.cons x2 t2) ++ brackC :: rest
            = commaC :: (stringify x2 ++ (arrTail t2 ++ brackC :: rest)) := by
          simp [arrTail, List.append_assoc]
        rw [hx, skipWs_cons_notWs (by decide)]
        dsimp only
        rw [if_pos rfl]
        obtain ⟨cx2, csx2, hcx2, hws2, _, _, _⟩ := stringify_head x2
        have h1 : stringify x2 ++ (arrTail t2 ++ brackC :: rest)
            = cx2 :: (csx2 ++ (arrTail t2 ++ brackC :: rest)) := by
          rw [hcx2]
          rfl
        rw [h1, skipWs_cons_notWs hws2, ← h1,
          ihe x2 t2 rest (by simp only [afuel] at ha ⊢; omega)]
        rfl

theorem parseVal_print (j : Json) (f : Nat) (rest : List Char) (hf : jfuel j ≤ f)
    (hr : noDigitHead rest = true) :
    parseVal f (stringify j ++ rest) = some (j, rest) :=
  (parsePrintAll f).1 j rest hf hr

theorem stringify_len_pos (j : Json) : 1 ≤ (stringify j).length := by
  obtain ⟨c, cs, hc, -, -, -, -⟩ := stringify_head j
  rw [hc]
  simp

/-- The parsing fuel a printed value needs is at most its printed
length. -/
theorem fuelBoundAll : ∀ n : Nat,
    (∀ j : Json, jfuel j ≤ n → jfuel j ≤ (stringify j).length)
  ∧ (∀ (k : List Char) (v : Json) (t : JObj), ofuel (JObj.cons k v t) ≤ n →
      ofuel (JObj.cons k v t)
        ≤ (strQuote k ++ colonC :: (stringify v ++ objTail t)).length + 1)
  ∧ (∀ (v : Json) (t : JArr), afuel (JArr.cons v t) ≤ n →
      afuel (JArr.cons v t) ≤ (stringify v ++ arrTail t).length + 1) := by
  intro n
  induction n with
  | zero =>
    refine ⟨?_, ?_, ?_⟩
    · intro j hj
      exact absurd hj (by have := jfuel_pos j; omega)
    · intro k v t ho
      exact absurd ho (by have := ofuel_pos (JObj.cons k v t); omega)
    · intro v t ha
      exact absurd ha (by have := afuel_pos (JArr.cons v t); omega)
  | succ n ih =>
    obtain ⟨ihv, ihm, ihe⟩ := ih
    refine ⟨?_, ?_, ?_⟩
    · intro j hj
      cases j with
      | null => have := stringify_len_pos Json.null; simp only [jfuel]; omega
      | bool b => have := stringify_len_pos (Json.bool b); simp only [jfuel]; omega
      | num m => have := stringify_len_pos (Json.num m); simp only [jfuel]; omega
      | str s => have := stringify_len_pos (Json.str s); simp only [jfuel]; omega
      | arr a =>
        cases a with
        | nil =>
          have hlen : (stringify (Json.arr JArr.nil)).length = 2 := by
            simp only [stringify]
            rfl
          simp only [jfuel, afuel, hlen]
          omega
        | cons x xs =>
          simp only [jfuel] at hj ⊢
          have hx := ihe x xs (by omega)
          have hlen : (stringify (Json.arr (JArr.cons x xs))).length
              = (stringify x ++ (arrTail xs)).length + 2 := by
            simp only [stringify, List.length_append, List.length_cons,
              List.length_nil]
            omega
          rw [hlen]
          have hx2 : (stringify x ++ arrTail xs).length
              = (stringify x ++ (arrTail xs)).length := rfl
          rw [hx2] at hx
          omega
      | obj o =>
        cases o with
        | nil =>
          have hlen : (stringify (Json.obj JObj.nil)).length = 2 := by
            simp only [stringify]
            rfl
          simp only [jfuel, ofuel, hlen]
          omega
        | cons k v t =>
          simp only [jfuel] at hj ⊢
          have hx := ihm k v t (by omega)
          have hlen : (stringify (Json.obj (JObj.cons k v t))).length
              = (strQuote k ++ colonC :: (stringify v ++ objTail t)).length + 2 := by
            simp only [stringify, strQuote, List.length_append, List.length_cons,
              List.length_nil]
            omega
          rw [hlen]
          omega
    · intro k v t ho
      simp only [ofuel] at ho
      have hv := ihv v (by omega)
      cases t with
      | nil =>
        have hlen : (strQuote k ++ colonC :: (stringify v ++ objTail JObj.nil)).length
            = (escBody k).length + 3 + (stringify v).length := by
          simp only [strQuote, objTail, List.length_append, List.length_cons,
            List.length_nil]
          omega
        have hsv := stringify_len_pos v
        simp only [ofuel, hlen]
        omega
      | cons k2 v2 t2 =>
        have hm := ihm k2 v2 t2 (by simp only [ofuel] at ho ⊢; omega)
        have hlen : (strQuote k
              ++ colonC :: (stringify v ++ objTail (JObj.cons k2 v2 t2))).length
            = (escBody k).length + 4 + (stringify v).length
              + (strQuote k2 ++ colonC :: (stringify v2 ++ objTail t2)).length := by
          simp only [strQuote, objTail, List.length_append, List.length_cons,
            List.length_nil]
          omega
        simp only [ofuel] at hm ⊢
        rw [hlen]
        omega
    · intro v t ha
      simp only [afuel] at ha
      have hv := ihv v (by omega)
      cases t with
      | nil =>
        have hlen : (stringify v ++ arrTail JArr.nil).length
            = (stringify v).length := by
          simp only [arrTail, List.length_append, List.length_nil]
          omega
        have hsv := stringify_len_pos v
        have hnil : afuel JArr.nil = 1 := by simp only [afuel]
        rw [hnil] at ha
        rw [hlen]
        simp only [afuel, hnil]
        omega
      | cons x2 t2 =>
        have he := ihe x2 t2 (by simp only [afuel] at ha ⊢; omega)
        have hlen : (stringify v ++ arrTail (JArr.cons x2 t2)).length
            = (stringify v).length + 1 + (stringify x2 ++ arrTail t2).length := by
          simp only [arrTail, List.length_append, List.length_cons, List.length_nil]
          omega
        simp only [afuel] at he ⊢
        rw [hlen]
        omega

/-- `JSON.parse` recovers any value from its `JSON.stringify` output. -/
theorem jsonParse_stringify (j : Json) : jsonParse (stringify j) = some j := by
  have hfb := (fuelBoundAll (jfuel j)).1 j (le_refl _)
  obtain ⟨c, cs, hc, hws, _, _, _⟩ := stringify_head j
  have hskip : skipWs (stringify j) = stringify j := by
    rw [hc]
    exact skipWs_cons_notWs hws
  have hnil : stringify j ++ [] = stringify j := by simp
  have hp : parseVal ((stringify j).length + 1) (stringify j)
      = some (j, []) := by
    rw [← hnil]
    rw [parseVal_print j _ [] ?hb (by decide)]
    case hb =>
      simp only [List.length_append, List.length_nil]
      omega
  simp only [jsonParse, hskip, hp]
  rfl

/-- C9. `runESLint` returns the parsed diagnostics when the process
succeeds, and also on a non-zero exit whose captured stdout is
non-empty and parses as JSON; when the process fails with absent,
empty, or unparsable stdout, the error propagates and the scan
fails. -/
theorem claim_C9 (out : ExecOutcome) :
    (∀ s j, out = ExecOutcome.ok s → jsonParse s = some j →
        runESLint out = some j)
  ∧ (∀ s j, out = ExecOutcome.err (some s) → s ≠ [] → jsonParse s = some j →
        runESLint out = some j)
  ∧ (∀ s, out = ExecOutcome.err (some s) → s = [] ∨ jsonParse s = none →
        runESLint out = none)
  ∧ (out = ExecOutcome.err none → runESLint out = none) := by
  refine ⟨?_, ?_, ?_, ?_⟩
  · intro s j ho hp
    subst ho
    simp only [runESLint, hp]
  · intro s j ho hs hp
    subst ho
    simp only [runESLint, if_neg hs, hp]
  · intro s ho hbad
    subst ho
    rcases hbad with he | hp
    · simp only [runESLint, if_pos he]
    · simp only [runESLint, hp]
      split
      · rfl
      · rfl
  · intro ho
    subst ho
    rfl

/-- Concrete instance: a non-zero eslint exit whose stdout is the JSON
text `[]` still yields the parsed (empty) diagnostic list. -/
theorem claim_C9_witness :
    runESLint (ExecOutcome.err (some [brackO, brackC]))
      = some (Json.arr JArr.nil) :=
  (claim_C9 (ExecOutcome.err (some [brackO, brackC]))).2.1
    [brackO, brackC] (Json.arr JArr.nil) rfl (by decide) (by rfl)

theorem LitBody.append {a b : List Char} (ha : LitBody a) (hb : LitBody b) :
    LitBody (a ++ b) := by
  induction ha with
  | nil => exact hb
  | esc c t _ ih => exact LitBody.esc c _ ih
  | chr c t hq hs _ ih => exact LitBody.chr c _ hq hs ih

theorem hexDig_plain : ∀ n < 16, hexDig n ≠ quoteC ∧ hexDig n ≠ backslashC := by
  decide

theorem escChar_lit (c : Char) : LitBody (escChar c) := by
  rw [escChar]
  by_cases h1 : c = quoteC
  · rw [if_pos h1]; exact LitBody.esc _ _ LitBody.nil
  rw [if_neg h1]
  by_cases h2 : c = backslashC
  · rw [if_pos h2]; exact LitBody.esc _ _ LitBody.nil
  rw [if_neg h2]
  by_cases h3 : c = nlC
  · rw [if_pos h3]; exact LitBody.esc _ _ LitBody.nil
  rw [if_neg h3]
  by_cases h4 : c = crC
  · rw [if_pos h4]; exact LitBody.esc _ _ LitBody.nil
  rw [if_neg h4]
  by_cases h5 : c = tabC
  · rw [if_pos h5]; exact LitBody.esc _ _ LitBody.nil
  rw [if_neg h5]
  by_cases h6 : c = Char.ofNat 8
  · rw [if_pos h6]; exact LitBody.esc _ _ LitBody.nil
  rw [if_neg h6]
  by_cases h7 : c = Char.ofNat 12
  · rw [if_pos h7]; exact LitBody.esc _ _ LitBody.nil
  rw [if_neg h7]
  by_cases h8 : c.toNat < 32
  · rw [if_pos h8]
    have hd1 := hexDig_plain (c.toNat / 16) (by omega)
    have hd2 := hexDig_plain (c.toNat % 16) (Nat.mod_lt _ (by omega))
    exact LitBody.esc _ _ (LitBody.chr _ _ (by decide) (by decide)
      (LitBody.chr _ _ (by decide) (by decide)
        (LitBody.chr _ _ hd1.1 hd1.2
          (LitBody.chr _ _ hd2.1 hd2.2 LitBody.nil))))
  · rw [if_neg h8]
    exact LitBody.chr _ _ h1 h2 LitBody.nil

theorem escBody_lit (s : List Char) : LitBody (escBody s) := by
  induction s with
  | nil => exact LitBody.nil
  | cons c t ih => exact (escChar_lit c).append ih

/- One-step evaluation lemmas for `scanLoop`. -/

theorem scanLoop_step_esc (c : Char) (rest : List Char) (d : Int) (inStr : Bool) :
    scanLoop (c :: rest) d inStr true
      = (scanLoop rest d inStr false).map (fun out => c :: out) := by
  simp [scanLoop]

theorem scanLoop_step_backslash (rest : List Char) (d : Int) :
    scanLoop (backslashC :: rest) d true false
      = (scanLoop rest d true true).map (fun out => backslashC :: out) := by
  simp [scanLoop]

theorem scanLoop_step_quote (rest : List Char) (d : Int) (inStr : Bool) :
    scanLoop (quoteC :: rest) d inStr false
      = (scanLoop rest d (!inStr) false).map (fun out => quoteC :: out) := by
  simp [scanLoop, show ¬(quoteC = backslashC) from by decide]

theorem scanLoop_step_inStr (c : Char) (rest : List Char) (d : Int)
    (hb : c ≠ backslashC) (hq : c ≠ quoteC) :
    scanLoop (c :: rest) d true false
      = (scanLoop rest d true false).map (fun out => c :: out) := by
  simp [scanLoop, hb, hq]

theorem scanLoop_step_open (rest : List Char) (d : Int) :
    scanLoop (braceO :: rest) d false false
      = (scanLoop rest (d + 1) false false).map (fun out => braceO :: out) := by
  simp [scanLoop, show ¬(braceO = quoteC) from by decide]

theorem scanLoop_step_close (rest : List Char) (d : Int) :
    scanLoop (braceC :: rest) d false false
      = if d = 1 then some [braceC]
        else (scanLoop rest (d - 1) false false).map (fun out => braceC :: out) := by
  simp [scanLoop, show ¬(braceC = quoteC) from by decide,
    show ¬(braceC = braceO) from by decide]

theorem scanLoop_step_plain (c : Char) (rest : List Char) (d : Int)
    (hq : c ≠ quoteC) (ho : c ≠ braceO) (hc : c ≠ braceC) :
    scanLoop (c :: rest) d false false
      = (scanLoop rest d false false).map (fun out => c :: out) := by
  simp [scanLoop, hq, ho, hc]

/-- A segment of inert characters passes through the scanner without
changing its state. -/
theorem scanLoop_plainSeg (t : List Char) (h : ∀ c ∈ t, scanPlain c) :
    ∀ (d : Int) (rest : List Char),
      scanLoop (t ++ rest) d false false
        = (scanLoop rest d false false).map (fun out => t ++ out) := by
  induction t with
  | nil =>
    intro d rest
    cases hx : scanLoop rest d false false <;> simp [hx]
  | cons c t ih =>
    intro d rest
    obtain ⟨h1, h2, h3⟩ := h c (by simp)
    rw [List.cons_append, scanLoop_step_plain c _ d h1 h2 h3,
      ih (fun x hx => h x (by simp [hx])) d rest]
    cases hx : scanLoop rest d false false <;> simp [hx]

/-- A string-literal body passes through the scanner while the
in-string flag is set, leaving depth and flags unchanged. -/
theorem scanLoop_lit {lit : List Char} (h : LitBody lit) :
    ∀ (d : Int) (rest : List Char),
      scanLoop (lit ++ rest) d true false
        = (scanLoop rest d true false).map (fun out => lit ++ out) := by
  induction h with
  | nil =>
    intro d rest
    cases hx : scanLoop rest d true false <;> simp [hx]
  | esc c t _ ih =>
    intro d rest
    rw [List.cons_append, List.cons_append, scanLoop_step_backslash,
      scanLoop_step_esc, ih d rest]
    cases hx : scanLoop rest d true false <;> simp [hx]
  | chr c t hq hs _ ih =>
    intro d rest
    rw [List.cons_append, scanLoop_step_inStr c _ d hs hq, ih d rest]
    cases hx : scanLoop rest d true false <;> simp [hx]

/-- A double-quoted string literal passes through the scanner with
braces inside it not affecting the nesting depth. -/
theorem scanLoop_quoted {lit : List Char} (h : LitBody lit) (d : Int)
    (rest : List Char) :
    scanLoop (quoteC :: (lit ++ quoteC :: rest)) d false false
      = (scanLoop rest d false false).map
          (fun out => quoteC :: (lit ++ quoteC :: out)) := by
  rw [scanLoop_step_quote]
  simp only [Bool.not_false]
  rw [scanLoop_lit h d (quoteC :: rest), scanLoop_step_quote]
  simp only [Bool.not_true]
  cases hx : scanLoop rest d false false <;> simp [hx]

/-- A printed JSON string literal is inert to the scanner. -/
theorem scanLoop_strQuote (s : List Char) (d : Int) (rest : List Char) :
    scanLoop (strQuote s ++ rest) d false false
      = (scanLoop rest d false false).map (fun out => strQuote s ++ out) := by
  have h : strQuote s ++ rest = quoteC :: (escBody s ++ quoteC :: rest) := by
    simp [strQuote]
  rw [h, scanLoop_quoted (escBody_lit s) d rest]
  cases hx : scanLoop rest d false false <;> simp [hx, strQuote]

theorem isDigitC_plain (c : Char) (h : isDigitC c = true) : scanPlain c := by
  simp only [isDigitC, Bool.and_eq_true, decide_eq_true_eq] at h
  refine ⟨?_, ?_, ?_⟩ <;> intro he <;> subst he <;> revert h <;> decide

theorem intChars_plain (m : Int) : ∀ c ∈ intChars m, scanPlain c := by
  intro c hc
  rw [intChars] at hc
  by_cases hneg : m < 0
  · rw [if_pos hneg] at hc
    rcases List.mem_cons.mp hc with he | hm
    · subst he
      exact ⟨by decide, by decide, by decide⟩
    · exact isDigitC_plain _ ((natChars_digits _).2 _ hm)
  · rw [if_neg hneg] at hc
    exact isDigitC_plain _ ((natChars_digits _).2 _ hc)

/-- At any depth of at least one, a printed value (and a printed
object or array tail) passes through the scanner with no net effect on
its state: braces inside printed string literals never touch the
depth. -/
theorem scanConsumeAll : ∀ n : Nat,
    (∀ j : Json, jfuel j ≤ n → ∀ d : Int, 1 ≤ d → ∀ rest : List Char,
      scanLoop (stringify j ++ rest) d false false
        = (scanLoop rest d false false).map (fun out => stringify j ++ out))
  ∧ (∀ t : JObj, ofuel t ≤ n → ∀ d : Int, 1 ≤ d → ∀ rest : List Char,
      scanLoop (objTail t ++ rest) d false false
        = (scanLoop rest d false false).map (fun out => objTail t ++ out))
  ∧ (∀ t : JArr, afuel t ≤ n → ∀ d : Int, 1 ≤ d → ∀ rest : List Char,
      scanLoop (arrTail t ++ rest) d false false
        = (scanLoop rest d false false).map (fun out => arrTail t ++ out)) := by
  intro n
  induction n with
  | zero =>
    refine ⟨?_, ?_, ?_⟩
    · intro j hj
      exact absurd hj (by have := jfuel_pos j; omega)
    · intro t ht
      exact absurd ht (by have := ofuel_pos t; omega)
    · intro t ht
      exact absurd ht (by have := afuel_pos t; omega)
  | succ n ih =>
    obtain ⟨ihv, ihm, ihe⟩ := ih
    refine ⟨?_, ?_, ?_⟩
    · intro j hj d hd rest
      cases j with
      | null =>
        simp only [stringify]
        exact scanLoop_plainSeg _ (by decide) d rest
      | bool b =>
        cases b with
        | true =>
          simp only [stringify]
          exact scanLoop_plainSeg _ (by decide) d rest
        | false =>
          simp only [stringify]
          exact scanLoop_plainSeg _ (by decide) d rest
      | num m =>
        simp only [stringify]
        exact scanLoop_plainSeg _ (intChars_plain m) d rest
      | str s =>
        simp only [stringify]
        exact scanLoop_strQuote s d rest
      | arr a =>
        cases a with
        | nil =>
          simp only [stringify]
          exact scanLoop_plainSeg _ (by decide) d rest
        | cons x xs =>
          simp only [jfuel, afuel] at hj
          have harr : stringify (Json.arr (JArr.cons x xs)) ++ rest
              = brackO :: (stringify x ++ (arrTail xs ++ (brackC :: rest))) := by
            simp only [stringify]
            simp [List.append_assoc]
          rw [harr,
            scanLoop_step_plain brackO _ _ (by decide) (by decide) (by decide),
            ihv x (by omega) d hd,
            ihe xs (by omega) d hd,
            scanLoop_step_plain brackC _ _ (by decide) (by decide) (by decide)]
          cases hx : scanLoop rest d false false <;>
            simp [hx, stringify, List.append_assoc]
      | obj o =>
        cases o with
        | nil =>
          have he : stringify (Json.obj JObj.nil) ++ rest
              = braceO :: (braceC :: rest) := by
            simp only [stringify]
            rfl
          rw [he, scanLoop_step_open, scanLoop_step_close,
            if_neg (by omega : ¬(d + 1 = 1))]
          have hdd : d + 1 - 1 = d := by omega
          rw [hdd]
          cases hx : scanLoop rest d false false <;> simp [hx, stringify]
        | cons k v fs =>
          simp only [jfuel, ofuel] at hj
          have hobj : stringify (Json.obj (JObj.cons k v fs)) ++ rest
              = braceO :: (strQuote k
                  ++ (colonC :: (stringify v
                      ++ (objTail fs ++ (braceC :: rest))))) := by
            simp only [stringify]
            simp [List.append_assoc]
          rw [hobj, scanLoop_step_open,
            scanLoop_strQuote,
            scanLoop_step_plain colonC _ _ (by decide) (by decide) (by decide),
            ihv v (by omega) (d + 1) (by omega),
            ihm fs (by omega) (d + 1) (by omega),
            scanLoop_step_close, if_neg (by omega : ¬(d + 1 = 1))]
          have hdd : d + 1 - 1 = d := by omega
          rw [hdd]
          cases hx : scanLoop rest d false false <;>
            simp [hx, stringify, List.append_assoc]
    · intro t ht d hd rest
      cases t with
      | nil =>
        simp only [objTail]
        cases hx : scanLoop rest d false false <;> simp [hx]
      | cons k v fs =>
        simp only [ofuel] at ht
        have hm : objTail (JObj.cons k v fs) ++ rest
            = commaC :: (strQuote k
                ++ (colonC :: (stringify v ++ (objTail fs ++ rest)))) := by
          simp only [objTail]
          simp [List.append_assoc]
        rw [hm,
          scanLoop_step_plain commaC _ _ (by decide) (by decide) (by decide),
          scanLoop_strQuote,
          scanLoop_step_plain colonC _ _ (by decide) (by decide) (by decide),
          ihv v (by omega) d hd,
          ihm fs (by omega) d hd]
        cases hx : scanLoop rest d false false <;>
          simp [hx, objTail, List.append_assoc]
    · intro t ht d hd rest
      cases t with
      | nil =>
        simp only [arrTail]
        cases hx : scanLoop rest d false false <;> simp [hx]
      | cons x xs =>
        simp only [afuel] at ht
        have hm : arrTail (JArr.cons x xs) ++ rest
            = commaC :: (stringify x ++ (arrTail xs ++ rest)) := by
          simp only [arrTail]
          simp [List.append_assoc]
        rw [hm,
          scanLoop_step_plain commaC _ _ (by decide) (by decide) (by decide),
          ihv x (by omega) d hd,
          ihe xs (by omega) d hd]
        cases hx : scanLoop rest d false false <;>
          simp [hx, arrTail, List.append_assoc]

/-- Started at depth zero on a printed object, the scanner breaks
exactly at the object's closing brace, consuming exactly the printed
object. -/
theorem scanLoop_printed_obj (o : JObj) (rest : List Char) :
    scanLoop (stringify (Json.obj o) ++ rest) 0 false false
      = some (stringify (Json.obj o)) := by
  cases o with
  | nil =>
    have he : stringify (Json.obj JObj.nil) ++ rest
        = braceO :: (braceC :: rest) := by
      simp only [stringify]
      rfl
    rw [he, scanLoop_step_open, scanLoop_step_close,
      if_pos (by omega : (0 : Int) + 1 = 1)]
    simp [stringify]
  | cons k v fs =>
    have hobj : stringify (Json.obj (JObj.cons k v fs)) ++ rest
        = braceO :: (strQuote k
            ++ (colonC :: (stringify v ++ (objTail fs ++ (braceC :: rest))))) := by
      simp only [stringify]
      simp [List.append_assoc]
    rw [hobj, scanLoop_step_open,
      scanLoop_strQuote,
      scanLoop_step_plain colonC _ _ (by decide) (by decide) (by decide),
      (scanConsumeAll (jfuel v)).1 v (le_refl _) (0 + 1) (by omega),
      (scanConsumeAll (ofuel fs)).2.1 fs (le_refl _) (0 + 1) (by omega),
      scanLoop_step_close, if_pos (by omega : (0 : Int) + 1 = 1)]
    simp [stringify, List.append_assoc]

/-- C6. The balanced-brace extractor treats braces inside double-quoted
string literals (including after escape sequences) as content that
does not affect nesting depth, and on an input consisting of the
object with key `a` and a closing brace inside its string value,
embedded in surrounding prose, it extracts and parses exactly that
object. -/
theorem claim_C6 :
    (∀ (lit : List Char), LitBody lit → ∀ (d : Int) (rest : List Char),
        scanLoop (quoteC :: (lit ++ quoteC :: rest)) d false false
          = (scanLoop rest d false false).map
              (fun out => quoteC :: (lit ++ quoteC :: out)))
  ∧ extractJsonFromString c6input = some c6json :=
  ⟨fun _ h d rest => scanLoop_quoted h d rest, by rfl⟩

/-- Concrete instance of the string-transparency half of C6: a literal
consisting of a single closing brace is scanned at depth one without
ending the scan. -/
theorem claim_C6_witness :
    scanLoop (quoteC :: ([braceC] ++ quoteC :: [braceC])) 1 false false
      = (scanLoop [braceC] 1 false false).map
          (fun out => quoteC :: ([braceC] ++ quoteC :: out)) :=
  claim_C6.1 [braceC]
    (LitBody.chr braceC [] (by decide) (by decide) LitBody.nil) 1 [braceC]

/-- C5. Normalization error handling: an explicit error indication
fails with the reply's own error value; every successful payload
exposes at least one schema field and originates from the
structured-output slot, the result object, or the extraction from the
result string — never fabricated; a qualifying structured-output slot
wins regardless of the result field; and with no error, no qualifying
structured-output slot and no result field the call fails with the
descriptive no-data message. -/
theorem claim_C5 (fields : List (List Char)) (r : ClaudeResp) :
    ((truthyO r.is_error = true ∨ truthyO r.error = true) →
        normalize fields r = NormResult.fail (errVal r))
  ∧ (∀ j, normalize fields r = NormResult.ok j →
        hasSchemaFields fields j = true
      ∧ (r.structured_output = some j ∨ r.result = some j
          ∨ ∃ s, r.result = some (Json.str s) ∧ extractJsonFromString s = some j))
  ∧ (∀ so, truthyO r.is_error = false → truthyO r.error = false →
        r.structured_output = some so → truthy so = true →
        hasSchemaFields fields so = true →
        normalize fields r = NormResult.ok so)
  ∧ (truthyO r.is_error = false → truthyO r.error = false →
      (∀ so, r.structured_output = some so →
          ¬(truthy so = true ∧ hasSchemaFields fields so = true)) →
      r.result = none →
      normalize fields r = NormResult.fail noDataMsg) := by
  refine ⟨?_, ?_, ?_, ?_⟩
  · intro he
    rw [normalize, if_pos he]
  · intro j hj
    rw [normalize] at hj
    split at hj
    · cases hj
    case _ hne =>
      have hfr : ∀ hr : normFromResult fields r.result = NormResult.ok j,
          hasSchemaFields fields j = true
        ∧ (r.structured_output = some j ∨ r.result = some j
            ∨ ∃ s, r.result = some (Json.str s)
                ∧ extractJsonFromString s = some j) := by
        intro hr
        rw [normFromResult.eq_def] at hr
        split at hr
        · cases hr
        case _ res heq =>
          split at hr
          case isTrue h =>
            cases hr
            exact ⟨h.2, Or.inr (Or.inl heq)⟩
          case isFalse h =>
            split at hr
            case _ s =>
              split at hr
              · cases hr
              · split at hr
                case _ p hp =>
                  split at hr
                  case isTrue h2 =>
                    cases hr
                    exact ⟨h2.2, Or.inr (Or.inr ⟨s, heq, hp⟩)⟩
                  case isFalse => cases hr
                case _ => cases hr
            case _ => cases hr
      split at hj
      case _ so hso =>
        split at hj
        case isTrue h =>
          cases hj
          exact ⟨h.2, Or.inl hso⟩
        case isFalse => exact hfr hj
      case _ => exact hfr hj
  · intro so hie her hso ht hf
    rw [normalize, if_neg (by simp [hie, her]), hso]
    exact if_pos ⟨ht, hf⟩
  · intro hie her hno hres
    cases hs : r.structured_output with
    | none =>
      rw [normalize, if_neg (by simp [hie, her]), hs, hres]
      rfl
    | some so =>
      rw [normalize, if_neg (by simp [hie, her]), hs]
      exact (if_neg (hno so hs)).trans (by rw [hres]; rfl)

/-- Concrete instance of C5: an `is_error` reply fails with the
default error message. -/
theorem claim_C5_witness :
    normalize [] w5resp = NormResult.fail (errVal w5resp) :=
  (claim_C5 [] w5resp).1 (Or.inl rfl)

theorem dropWhile_head_false {c : Char} (t : List Char)
    (h : isJsWs c = false) : (c :: t).dropWhile isJsWs = c :: t := by
  simp [List.dropWhile_cons, h]

theorem trimJs_cons_snoc (a b : Char) (mid : List Char)
    (ha : isJsWs a = false) (hb : isJsWs b = false) :
    trimJs (a :: (mid ++ [b])) = a :: (mid ++ [b]) := by
  rw [trimJs, dropWhile_head_false _ ha]
  have hrev : (a :: (mid ++ [b])).reverse = b :: (mid.reverse ++ [a]) := by
    simp
  rw [hrev, dropWhile_head_false _ hb]
  simp

theorem stringify_obj_head (o : JObj) :
    ∃ ps, stringify (Json.obj o) = braceO :: ps := by
  cases o with
  | nil => exact ⟨[braceC], by simp [stringify]⟩
  | cons k v fs =>
    exact ⟨strQuote k ++ colonC :: (stringify v ++ (objTail fs ++ [braceC])),
      by simp [stringify]⟩

/-- The extraction pipeline on a fence-wrapped printed object: the
trim is the identity, the two fence strips peel the markdown wrapper,
the first brace starts the printed object, the scan consumes exactly
it, and parsing recovers the object. -/
theorem extract_fenceWrap (o : JObj) :
    extractJsonFromString (fenceWrap (stringify (Json.obj o)))
      = some (Json.obj o) := by
  obtain ⟨ps, hps⟩ := stringify_obj_head o
  have hA : ("```json\n".toList : List Char)
      = backtickC :: backtickC :: backtickC
        :: 'j' :: 's' :: 'o' :: 'n' :: nlC :: [] := by decide
  have hB : ("\n```".toList : List Char)
      = nlC :: backtickC :: backtickC :: backtickC :: [] := by decide
  have hw : fenceWrap (stringify (Json.obj o))
      = backtickC :: backtickC :: backtickC :: ('j' :: 's' :: 'o' :: 'n'
          :: nlC :: (stringify (Json.obj o)
            ++ (nlC :: backtickC :: backtickC :: backtickC :: []))) := by
    rw [fenceWrap, hA, hB]
    simp [List.append_assoc]
  have hw2 : fenceWrap (stringify (Json.obj o))
      = backtickC :: ((backtickC :: backtickC :: 'j' :: 's' :: 'o' :: 'n'
          :: nlC :: (stringify (Json.obj o)
            ++ (nlC :: backtickC :: backtickC :: [])))
          ++ [backtickC]) := by
    rw [fenceWrap, hA, hB]
    simp [List.append_assoc]
  have htrim : trimJs (fenceWrap (stringify (Json.obj o)))
      = fenceWrap (stringify (Json.obj o)) := by
    rw [hw2]
    exact trimJs_cons_snoc _ _ _ (by decide) (by decide)
  have hpre : isPre ('j' :: 's' :: 'o' :: 'n' :: [])
      ('j' :: 's' :: 'o' :: 'n' :: nlC :: (stringify (Json.obj o)
        ++ (nlC :: backtickC :: backtickC :: backtickC :: []))) = true := rfl
  have hdropP : ((stringify (Json.obj o)
      ++ (nlC :: backtickC :: backtickC :: backtickC :: [])).dropWhile isJsWs)
      = stringify (Json.obj o)
        ++ (nlC :: backtickC :: backtickC :: backtickC :: []) := by
    rw [hps]
    simp only [List.cons_append]
    exact dropWhile_head_false _ (by decide)
  have hlead : stripLeadFence (fenceWrap (stringify (Json.obj o)))
      = stringify (Json.obj o)
        ++ (nlC :: backtickC :: backtickC :: backtickC :: []) := by
    rw [hw]
    simp only [stripLeadFence]
    rw [if_pos ⟨trivial, trivial, trivial⟩, if_pos hpre]
    simp only [List.drop_succ_cons, List.drop_zero]
    rw [List.dropWhile_cons, if_pos (by decide)]
    exact hdropP
  have hrevtail : ((stringify (Json.obj o)
      ++ (nlC :: backtickC :: backtickC :: backtickC :: [])).reverse.dropWhile
        isJsWs)
      = backtickC :: backtickC :: backtickC
        :: (nlC :: (stringify (Json.obj o)).reverse) := by
    have h1 : (stringify (Json.obj o)
        ++ (nlC :: backtickC :: backtickC :: backtickC :: [])).reverse
        = backtickC :: backtickC :: backtickC
          :: (nlC :: (stringify (Json.obj o)).reverse) := by
      simp
    rw [h1]
    exact dropWhile_head_false _ (by decide)
  have htrail : stripTrailFence (stringify (Json.obj o)
      ++ (nlC :: backtickC :: backtickC :: backtickC :: []))
      = stringify (Json.obj o) := by
    simp only [stripTrailFence]
    rw [hrevtail]
    simp
  have hfirst : firstBraceSuffix (stringify (Json.obj o))
      = some (stringify (Json.obj o)) := by
    rw [hps]
    simp [firstBraceSuffix]
  have hscan : scanLoop (stringify (Json.obj o)) 0 false false
      = some (stringify (Json.obj o)) := by
    have h := scanLoop_printed_obj o []
    simpa using h
  have hne : ¬(fenceWrap (stringify (Json.obj o)) = []) := by
    rw [hw]
    simp
  rw [extractJsonFromString, if_neg hne, htrim, hlead, htrail, hfirst]
  dsimp only
  rw [hscan]
  dsimp only
  exact jsonParse_stringify _

/-- C7. Response-normalizer round-trip: a reply with no error
indication and no structured-output slot whose result is the payload's
printed text wrapped in a markdown json fence normalizes to exactly
that payload, provided the payload exposes at least one schema
field. -/
theorem claim_C7 (fields : List (List Char)) (P : Json)
    (hP : hasSchemaFields fields P = true) :
    normalize fields
      { is_error := none, error := none, message := none,
        structured_output := none,
        result := some (Json.str (fenceWrap (stringify P))) }
      = NormResult.ok P := by
  obtain ⟨po⟩ : ∃ po, P = Json.obj po := by
    cases P with
    | obj po => exact ⟨po, rfl⟩
    | null => exact absurd hP (by simp [hasSchemaFields])
    | bool b => exact absurd hP (by simp [hasSchemaFields])
    | num m => exact absurd hP (by simp [hasSchemaFields])
    | str s => exact absurd hP (by simp [hasSchemaFields])
    | arr a => exact absurd hP (by simp [hasSchemaFields])
  case intro h =>
  subst h
  have hex := extract_fenceWrap po
  have htr : trimJs (fenceWrap (stringify (Json.obj po)))
      ≠ [] := by
    obtain ⟨ps, hps⟩ := stringify_obj_head po
    intro hcon
    have hA : ("```json\n".toList : List Char)
        = backtickC :: backtickC :: backtickC
          :: 'j' :: 's' :: 'o' :: 'n' :: nlC :: [] := by decide
    have hB : ("\n```".toList : List Char)
        = nlC :: backtickC :: backtickC :: backtickC :: [] := by decide
    have hw2 : fenceWrap (stringify (Json.obj po))
        = backtickC :: ((backtickC :: backtickC :: 'j' :: 's' :: 'o' :: 'n'
            :: nlC :: (stringify (Json.obj po)
              ++ (nlC :: backtickC :: backtickC :: [])))
            ++ [backtickC]) := by
      rw [fenceWrap, hA, hB]
      simp [List.append_assoc]
    rw [hw2, trimJs_cons_snoc _ _ _ (by decide) (by decide)] at hcon
    cases hcon
  rw [normalize]
  rw [if_neg (by simp [truthyO])]
  show normFromResult fields (some (Json.str (fenceWrap (stringify (Json.obj po)))))
      = NormResult.ok (Json.obj po)
  rw [normFromResult]
  rw [if_neg (by simp [jsTypeofObject])]
  show (if trimJs (fenceWrap (stringify (Json.obj po))) = [] then
      NormResult.fail noDataMsg
    else
      match extractJsonFromString (fenceWrap (stringify (Json.obj po))) with
      | some p =>
        if truthy p = true ∧ hasSchemaFields fields p = true then NormResult.ok p
        else NormResult.fail noDataMsg
      | none => NormResult.fail noDataMsg) = NormResult.ok (Json.obj po)
  rw [if_neg htr, hex]
  show (if truthy (Json.obj po) = true
      ∧ hasSchemaFields fields (Json.obj po) = true then
        NormResult.ok (Json.obj po)
      else NormResult.fail noDataMsg) = NormResult.ok (Json.obj po)
  rw [if_pos ⟨rfl, hP⟩]

/-- Concrete instance of C7: the fenced printed `w7json` normalizes
back to `w7json`. -/
theorem claim_C7_witness :
    normalize ["fixes".toList]
      { is_error := none, error := none, message := none,
        structured_output := none,
        result := some (Json.str (fenceWrap (stringify w7json))) }
      = NormResult.ok w7json :=
  claim_C7 ["fixes".toList] w7json (by decide)

end GSL